import Mathlib

/-!
Verification development for the folder-remark tool (desktop.ini read/write
service, subfolder enumeration, single-instance forwarding, batch save).

Text is modelled as `List Char` (`Str`).  The sidecar file format and its
reader are modelled after Python's `configparser` as used by the code
(`ConfigParser` with `optionxform = str`, delimiters `=`/`:`, full-line
comments `#`/`;`, `empty_lines_in_values = True`, strict duplicate checks,
`BasicInterpolation` applied by `get`/`items`/`set`).  Byte-level encodings
(utf-16 / utf-8-sig / mbcs) are modelled by recording, for each candidate
encoding, the text the file's bytes decode to (`Raw`), since the decoders
themselves are platform primitives.
-/

abbrev Str := List Char

deriving instance DecidableEq for Except

/-- Whitespace characters recognised by Python's `str.strip` / `\s`. -/
def pyWs (c : Char) : Bool :=
  c = ' ' || c = '\t' || c = '\n' || c = '\r' || c = '\x0b' || c = '\x0c' ||
  c = '\x1c' || c = '\x1d' || c = '\x1e' || c = '\x1f' || c = '\u0085' ||
  c = ' ' || c = ' ' || ((' ' ≤ c) && (c ≤ ' ')) ||
  c = ' ' || c = ' ' || c = ' ' || c = ' ' || c = '　'

/-- Strip leading whitespace (Python `str.lstrip`). -/
def stripL (s : Str) : Str := s.dropWhile pyWs

/-- Strip trailing whitespace (Python `str.rstrip`). -/
def stripR : Str → Str
  | [] => []
  | c :: t =>
    match stripR t with
    | [] => if pyWs c then [] else [c]
    | r => c :: r

/-- Python `str.strip`. -/
def pyStrip (s : Str) : Str := stripR (stripL s)

/-- ASCII lowercasing applied characterwise (Python `str.lower` restricted to
ASCII; all names compared case-insensitively by the code are ASCII). -/
def lowerStr (s : Str) : Str := s.map Char.toLower

/-- Split a text into physical lines at `'\n'`. -/
def splitLines : Str → List Str
  | [] => [[]]
  | c :: r =>
    if c = '\n' then [] :: splitLines r
    else
      match splitLines r with
      | l :: ls => (c :: l) :: ls
      | [] => [[c]]

/-- Join value lines with `'\n'` (configparser `_join_multiline_values`). -/
def joinNl : List Str → Str
  | [] => []
  | [l] => l
  | l :: ls => l ++ '\n' :: joinNl ls

/-- Concatenate lines, terminating each with `'\n'` (every line emitted by
`ConfigParser.write` ends with a newline). -/
def unlines (ls : List Str) : Str := ls.foldr (fun l acc => l ++ '\n' :: acc) []

/-- Split at the first occurrence of `stop`, returning the part before and the
part after the found character. -/
def takeToChar (stop : Char) : Str → Option (Str × Str)
  | [] => none
  | c :: r =>
    if c = stop then some ([], r)
    else (takeToChar stop r).map (fun p => (c :: p.1, p.2))

/-- Match the configparser section-header pattern `\[([^]]+)\]` at the start
of a (stripped) line. -/
def matchHeader (v : Str) : Option Str :=
  match v with
  | [] => none
  | c :: r =>
    if c = '[' then
      match takeToChar ']' r with
      | some (h, _) => if h = [] then none else some h
      | none => none
    else none

/-- Split at the first key/value delimiter (`=` or `:`), as the lazy
`(?P<option>.*?)\s*(=|:)\s*(?P<value>.*)$` pattern does. -/
def splitDelim : Str → Option (Str × Str)
  | [] => none
  | c :: r =>
    if c = '=' || c = ':' then some ([], r)
    else (splitDelim r).map (fun p => (c :: p.1, p.2))

/-- Append one more physical line to the value of option `k`
(`cursect[optname].append(...)`). -/
def appendToKey : List (Str × List Str) → Str → Str → List (Str × List Str)
  | [], _, _ => []
  | (k', ls) :: t, k, x =>
    if k' = k then (k', ls ++ [x]) :: t else (k', ls) :: appendToKey t k x

/-- Parse errors: configparser exceptions raised while reading
(`DuplicateSectionError`, `DuplicateOptionError`,
`MissingSectionHeaderError`, `ParsingError`). -/
inductive PErr where
  | dupSection
  | dupOption
  | missingHeader
  | badLine
deriving DecidableEq, Repr

/-- Parser state mirroring `RawConfigParser._read`'s locals: completed
sections, the current section (`cursect`), the current option (`optname`,
which receives continuation lines), and the indentation level
(`none` stands for `sys.maxsize`). -/
structure PSt where
  done : List (Str × List (Str × List Str))
  cur : Option (Str × List (Str × List Str))
  curOpt : Option Str
  indent : Option Nat
deriving DecidableEq, Repr

/-- Handle a line that is not blank and not a continuation: section header,
option line, or a parse error. -/
def parseNew (st : PSt) (value : Str) (curIndent : Nat) : Except PErr PSt :=
  let st := { st with indent := some curIndent }
  match matchHeader value with
  | some h =>
    if h ∈ st.done.map Prod.fst ∨ st.cur.map Prod.fst = some h then
      .error .dupSection
    else
      .ok { st with done := st.done ++ st.cur.toList,
                    cur := some (h, []), curOpt := none }
  | none =>
    match st.cur with
    | none => .error .missingHeader
    | some (n, ps) =>
      match splitDelim value with
      | none => .error .badLine
      | some (pre, post) =>
        let k := stripR pre
        let v := pyStrip post
        if k ∈ ps.map Prod.fst then .error .dupOption
        else .ok { st with cur := some (n, ps ++ [(k, [v])]), curOpt := some k }

/-- Process one physical line (`RawConfigParser._read` loop body, with no
inline comment prefixes configured). -/
def parseStep (st : PSt) (line : Str) : Except PErr PSt :=
  let stripped := pyStrip line
  let isComment : Bool :=
    match stripped with
    | c :: _ => c = '#' || c = ';'
    | [] => false
  let value := if isComment then [] else stripped
  if value = [] then
    match st.cur, st.curOpt with
    | some _, some k =>
      if isComment then .ok { st with indent := none }
      else .ok { st with cur := st.cur.map (fun s => (s.1, appendToKey s.2 k [])) }
    | _, _ => .ok { st with indent := none }
  else
    let curIndent := (line.takeWhile pyWs).length
    match st.cur, st.curOpt, st.indent with
    | some s, some k, some ind =>
      if curIndent > ind then
        .ok { st with cur := some (s.1, appendToKey s.2 k value) }
      else parseNew st value curIndent
    | _, _, _ => parseNew st value curIndent

def parseLinesGo (st : PSt) : List Str → Except PErr PSt
  | [] => .ok st
  | l :: ls =>
    match parseStep st l with
    | .error e => .error e
    | .ok st' => parseLinesGo st' ls

/-- A parsed document: sections in order, each with its options in order.
Option values are joined and right-stripped at the end of the read
(`_join_multiline_values`). -/
abbrev Doc := List (Str × List (Str × Str))

def finalizePairs (ps : List (Str × List Str)) : List (Str × Str) :=
  ps.map (fun p => (p.1, stripR (joinNl p.2)))

def finalizeSt (st : PSt) : Doc :=
  (st.done ++ st.cur.toList).map (fun s => (s.1, finalizePairs s.2))

def pInit : PSt := ⟨[], none, none, some 0⟩

/-- `parser.read_string text` with `optionxform = str`, for texts without a
`[DEFAULT]` section (configparser would route one to its defaults store;
claims over whole files restrict to `fsNoDefault` sidecars, where the
defaults store stays empty throughout). -/
def parseText (s : Str) : Except PErr Doc :=
  (parseLinesGo pInit (splitLines s)).map finalizeSt

/-- `value.replace('\n', '\n\t')` used by `ConfigParser.write`. -/
def replaceNl (s : Str) : Str :=
  s.flatMap (fun c => if c = '\n' then ['\n', '\t'] else [c])

/-- One option line as written by `ConfigParser.write` with
`space_around_delimiters=True`. -/
def pairLine (k v : Str) : Str := k ++ ' ' :: '=' :: ' ' :: replaceNl v

/-- Lines written for one section: header, option lines, one blank line. -/
def sectionLines (n : Str) (ps : List (Str × Str)) : List Str :=
  ('[' :: n ++ [']']) :: ps.map (fun p => pairLine p.1 p.2) ++ [[]]

def docLines (d : Doc) : List Str :=
  d.foldr (fun s acc => sectionLines s.1 s.2 ++ acc) []

/-- Text produced by `write_config` (the `parser.write` serialization; the
file is then encoded as utf-16, which is injective on text, so byte equality
of sidecar files is text equality). -/
def write_config_text (d : Doc) : Str := unlines (docLines d)

/-- The suffix returned by `takeToChar` is strictly shorter than the input. -/
theorem takeToChar_snd_length {stop : Char} {s a b : Str}
    (h : takeToChar stop s = some (a, b)) : b.length < s.length := by
  induction s generalizing a b with
  | nil => simp [takeToChar] at h
  | cons c t ih =>
    by_cases hc : c = stop
    · simp [takeToChar, hc] at h
      simp [← h.2]
    · simp [takeToChar, hc] at h
      obtain ⟨p, hp, h2⟩ := h
      have := ih hp
      simp
      omega

/-- Interpolation errors raised by `BasicInterpolation` during
`ConfigParser.get`/`items` (`InterpolationSyntaxError`,
`InterpolationMissingOptionError`, `InterpolationDepthError`). -/
inductive IErr where
  | badRef
  | missingKey
  | depthExceeded
deriving DecidableEq, Repr

/-- `BasicInterpolation._interpolate_some`: scan for `%`; `%%` yields `%`;
`%(name)s` substitutes the raw value of `name` from the section map,
recursively interpolating it when it itself contains `%` (bounded by
`MAX_INTERPOLATION_DEPTH`, modelled by `fuel`); any other use of `%` raises
`InterpolationSyntaxError`. -/
def interpGo (look : Str → Option Str) : Nat → Str → Except IErr Str
  | 0, _ => .error .depthExceeded
  | _ + 1, [] => .ok []
  | fuel + 1, '%' :: '%' :: r =>
    match interpGo look (fuel + 1) r with
    | .ok t => .ok ('%' :: t)
    | .error e => .error e
  | fuel + 1, '%' :: '(' :: r =>
    match h : takeToChar ')' r with
    | some (name, 's' :: r2) =>
      if name = [] then .error .badRef
      else
        match look name with
        | none => .error .missingKey
        | some v =>
          match (if '%' ∈ v then interpGo look fuel v else .ok v) with
          | .error e => .error e
          | .ok ev =>
            match interpGo look (fuel + 1) r2 with
            | .ok t => .ok (ev ++ t)
            | .error e => .error e
    | _ => .error .badRef
  | _ + 1, '%' :: _ => .error .badRef
  | fuel + 1, c :: rest =>
    match interpGo look (fuel + 1) rest with
    | .ok t => .ok (c :: t)
    | .error e => .error e
termination_by fuel s => (fuel, s.length)
decreasing_by
  · exact Prod.Lex.right _ (by simp only [List.length_cons]; omega)
  · exact Prod.Lex.left _ _ (Nat.lt_succ_self _)
  · have := takeToChar_snd_length h
    refine Prod.Lex.right _ ?_
    simp only [List.length_cons] at this ⊢
    omega
  · exact Prod.Lex.right _ (by simp only [List.length_cons]; omega)

/-- `MAX_INTERPOLATION_DEPTH`. -/
def maxInterpDepth : Nat := 10

/-- `BasicInterpolation.before_get` with the section's option map as the
lookup environment. -/
def interpolateValue (look : Str → Option Str) (v : Str) : Except IErr Str :=
  interpGo look maxInterpDepth v

/-- First value stored under exactly `k` (configparser sections are dicts, so
keys are unique after a successful read). -/
def lookupExact (ps : List (Str × Str)) (k : Str) : Option Str :=
  (ps.find? (fun p => p.1 = k)).map Prod.snd

/-- The bytes of a sidecar file, represented by the text each candidate
encoding decodes them to (`none` = that decoding raises). -/
structure Raw where
  utf16 : Option Str
  utf8sig : Option Str
  mbcs : Option Str
deriving DecidableEq, Repr

/-- Universal-newline translation applied by `Path.read_text`
(`newline=None`): `\r\n` and a lone `\r` both become `\n`. -/
def univNl : Str → Str
  | [] => []
  | [c] => if c = '\r' then ['\n'] else [c]
  | c :: c2 :: t =>
    if c = '\r' then
      if c2 = '\n' then '\n' :: univNl t
      else '\n' :: univNl (c2 :: t)
    else c :: univNl (c2 :: t)

/-- Text written by `write_config` is encoded as utf-16 with BOM; the BOM
byte `0xFF`/`0xFE` makes the bytes invalid utf-8, and the utf-16 decoding is
tried (and, for the documents this program writes, parses) first, so the
other decodings are never consulted.  `read_text` re-reads the written text
through universal-newline mode, so a lone `\r` stored inside a value comes
back as `\n`. -/
def writtenRaw (t : Str) : Raw := ⟨some (univNl t), none, none⟩

/-- One decode attempt of `safe_read_config`: the candidate succeeds when the
bytes decode and `read_string` does not raise. -/
def tryDecode (cand : Option Str) : Option Doc :=
  match cand with
  | none => none
  | some t =>
    match parseText t with
    | .ok d => some d
    | .error _ => none

/-- `safe_read_config`: try utf-16, utf-8-sig, mbcs in order; the first
candidate that decodes and parses wins; a missing file or exhausted
candidates yield an empty configuration. -/
def safe_read_config (file : Option Raw) : Doc :=
  match file with
  | none => []
  | some raw =>
    match tryDecode raw.utf16 with
    | some d => d
    | none =>
      match tryDecode raw.utf8sig with
      | some d => d
      | none =>
        match tryDecode raw.mbcs with
        | some d => d
        | none => []

/-- The `.ShellClassInfo` section name. -/
def shellClassInfo : Str := ".ShellClassInfo".toList

def infoTipKey : Str := "InfoTip".toList

def infoTipLower : Str := "infotip".toList

/-- `parser.has_section` (exact, case-sensitive name). -/
def hasSec (d : Doc) (n : Str) : Bool := d.any (fun s => s.1 = n)

/-- Options of the first section with the given name. -/
def findSec (d : Doc) (n : Str) : Option (List (Str × Str)) :=
  (d.find? (fun s => s.1 = n)).map Prod.snd

/-- Rewrite the options of the first section with the given name. -/
def updateSec (d : Doc) (n : Str) (f : List (Str × Str) → List (Str × Str)) :
    Doc :=
  match d with
  | [] => []
  | s :: t => if s.1 = n then (s.1, f s.2) :: t else s :: updateSec t n f

/-- `parser.remove_section` (first section with the name). -/
def removeSec (d : Doc) (n : Str) : Doc :=
  match d with
  | [] => []
  | s :: t => if s.1 = n then t else s :: removeSec t n

/-- `parser.set` on a dict-backed section: replace in place when the exact
key exists, else append. -/
def setKey (ps : List (Str × Str)) (k v : Str) : List (Str × Str) :=
  match ps with
  | [] => [(k, v)]
  | p :: t => if p.1 = k then (k, v) :: t else p :: setKey t k v

/-- `'%%'`-removal step of `BasicInterpolation.before_set`. -/
def dropPercentPairs : Str → Str
  | [] => []
  | '%' :: '%' :: r => dropPercentPairs r
  | c :: r => c :: dropPercentPairs r

/-- `_KEYCRE.sub('', ...)` step of `before_set`: remove `%(name)s` references
(scanning left to right, advancing one character after a failed match). -/
def dropKeyRefs : Str → Str
  | [] => []
  | '%' :: '(' :: r =>
    (match h : takeToChar ')' r with
     | some (name, 's' :: r2) =>
       if name = [] then '%' :: dropKeyRefs ('(' :: r) else dropKeyRefs r2
     | _ => '%' :: dropKeyRefs ('(' :: r))
  | c :: r => c :: dropKeyRefs r
termination_by s => s.length
decreasing_by
  · simp only [List.length_cons]
    omega
  · have := takeToChar_snd_length h
    simp only [List.length_cons] at this ⊢
    omega
  · simp only [List.length_cons]
    omega
  · simp only [List.length_cons]
    omega

/-- `BasicInterpolation.before_set`: after removing `%%` pairs and `%(name)s`
references, any remaining `%` raises `ValueError`. -/
def badPercent (v : Str) : Bool := '%' ∈ dropKeyRefs (dropPercentPairs v)

/-- Errors `write_info_tip` can propagate: `FileNotFoundError` for a missing
folder, `ValueError` from `parser.set` on malformed `%` syntax, or an
interpolation error from `parser.items`. -/
inductive WErr where
  | notFound
  | valueError
  | interpError (e : IErr)
deriving DecidableEq, Repr

/-- `parser.items(section)` interpolates every remaining value with the
section as lookup environment. -/
def itemsInterp (ps : List (Str × Str)) : Except IErr (List (Str × Str)) :=
  itemsGo ps ps
where
  itemsGo (env : List (Str × Str)) : List (Str × Str) →
      Except IErr (List (Str × Str))
    | [] => .ok []
    | (k, v) :: t =>
      match interpolateValue (lookupExact env) v with
      | .error e => .error e
      | .ok v' =>
        match itemsGo env t with
        | .error e => .error e
        | .ok t' => .ok ((k, v') :: t')

/-- `FILE_ATTRIBUTE_HIDDEN`. -/
def attrHidden : Nat := 2

/-- `FILE_ATTRIBUTE_SYSTEM`. -/
def attrSystem : Nat := 4

/-- A sidecar file on disk: its bytes (as candidate decodings) and its
Win32 attribute bits. -/
structure IniFile where
  raw : Raw
  attrs : Nat
deriving DecidableEq, Repr

/-- Filesystem state around one folder: whether the folder exists, its
attribute bits, and its `desktop.ini` (if present).  Platform attribute
reads/writes on existing paths are modelled as succeeding. -/
structure FS where
  folderExists : Bool
  folderAttrs : Nat
  ini : Option IniFile
deriving DecidableEq, Repr

/-- The name configparser reserves for its defaults store. -/
def defaultSect : Str := "DEFAULT".toList

/-- Whether some physical line of a text is a `[DEFAULT]` section header.
configparser routes such a section to its defaults store, whose keys leak
into every section's `options()`, `get()` and `items()`; this development
models the defaults-free parser, so theorems about whole-file behaviour
restrict their sidecars with `fsNoDefault`. -/
def hasDefaultLine (t : Str) : Bool :=
  (splitLines t).any (fun l => matchHeader (pyStrip l) = some defaultSect)

/-- No candidate decoding of the sidecar mentions a `[DEFAULT]` section:
the parser's defaults store stays empty and the defaults-free model is
faithful. -/
def rawNoDefault (w : Raw) : Bool :=
  w.utf16.all (fun t => !hasDefaultLine t) &&
  w.utf8sig.all (fun t => !hasDefaultLine t) &&
  w.mbcs.all (fun t => !hasDefaultLine t)

/-- The folder's sidecar (when present) mentions no `[DEFAULT]` section. -/
def fsNoDefault (fs : FS) : Bool :=
  match fs.ini with
  | none => true
  | some f => rawNoDefault f.raw

/-- Document part of `write_info_tip` between reading and persisting, on a
parser with an empty defaults store (so `parser.items(section)` sees only
the section's own entries): `add_section` when missing, removal of every
case variant of `InfoTip`, then either
`parser.set(section, "InfoTip", remark)` (whose `before_set` validates `%`
syntax) or the remove/cleanup branch with its `parser.items(section)`
check. -/
def applyRemark (d : Doc) (remark : Str) : Except WErr Doc :=
  let d1 := if hasSec d shellClassInfo then d else d ++ [(shellClassInfo, [])]
  let d2 := updateSec d1 shellClassInfo
    (fun ps => ps.filter (fun p => ¬ lowerStr p.1 = infoTipLower))
  if remark = [] then
    let d3 := updateSec d2 shellClassInfo
      (fun ps => ps.filter (fun p => ¬ p.1 = infoTipKey))
    match findSec d3 shellClassInfo with
    | none => .ok d3
    | some ps =>
      match itemsInterp ps with
      | .error e => .error (.interpError e)
      | .ok its => .ok (if its = [] then removeSec d3 shellClassInfo else d3)
  else
    if badPercent remark then .error .valueError
    else .ok (updateSec d2 shellClassInfo (fun ps => setKey ps infoTipKey remark))

/-- `DesktopIniService.write_info_tip`.  Returns the outcome (`ok` or the
raised error) together with the filesystem state at that point: the
`FileNotFoundError` check precedes every side effect; `ensure_folder_system`
marks the folder SYSTEM before the document is touched; when the mutated
document has no sections the sidecar is unlinked and nothing is written;
otherwise the serialized document is written in utf-16 and the sidecar is
marked hidden+system. -/
def write_info_tip (fs : FS) (remark : Str) : Except WErr Unit × FS :=
  if fs.folderExists = false then (.error .notFound, fs)
  else
    let fs1 : FS := { fs with folderAttrs := fs.folderAttrs ||| attrSystem }
    let d := safe_read_config (fs1.ini.map IniFile.raw)
    match applyRemark d remark with
    | .error e => (.error e, fs1)
    | .ok d3 =>
      if d3 = [] then (.ok (), { fs1 with ini := none })
      else
        let t := write_config_text d3
        let a0 := match fs1.ini with
          | some f => f.attrs
          | none => 0
        (.ok (), { fs1 with
          ini := some ⟨writtenRaw t, a0 ||| attrHidden ||| attrSystem⟩ })

/-- Post-decode part of `DesktopIniService.read_info_tip` on a parser with
an empty defaults store (`options()`, `get()` and `items()` then see only
the section's own entries): no `.ShellClassInfo` section gives `""`;
otherwise the first option whose lowercased name is `infotip` is returned
via `parser.get` (which applies `BasicInterpolation` and can raise); no
such option gives `""`. -/
def read_info_tip_doc (d : Doc) : Except IErr Str :=
  match findSec d shellClassInfo with
  | none => .ok []
  | some ps =>
    match ps.find? (fun p => lowerStr p.1 = infoTipLower) with
    | none => .ok []
    | some kv =>
      interpolateValue (lookupExact ps) ((lookupExact ps kv.1).getD [])

/-- `DesktopIniService.read_info_tip` on the folder's filesystem state. -/
def read_info_tip (fs : FS) : Except IErr Str :=
  read_info_tip_doc (safe_read_config (fs.ini.map IniFile.raw))

/-- One `os.scandir` entry: its leaf name, whether it is a directory
(`follow_symlinks=False`), and whether the `is_dir` check raised
`PermissionError`. -/
structure DirEntry where
  name : Str
  isDir : Bool
  permDenied : Bool
deriving DecidableEq, Repr

/-- A child path `parent\name` as a structured value. -/
structure MPath where
  parent : Str
  name : Str
deriving DecidableEq, Repr

/-- `str(path)` for a scandir child. -/
def pathStr (p : MPath) : Str := p.parent ++ '\\' :: p.name

/-- Strict code-point lexicographic order on text (Python `str.__lt__`). -/
def lexLt : Str → Str → Bool
  | [], [] => false
  | [], _ :: _ => true
  | _ :: _, [] => false
  | a :: as, b :: bs => if a < b then true else if b < a then false else lexLt as bs

/-- `WindowsPath.__lt__`: paths compare by their case-folded (lowercased)
string form. -/
def pathLt (p q : MPath) : Bool := lexLt (lowerStr (pathStr p)) (lowerStr (pathStr q))

/-- Stable insertion into a sorted list under a strict order, matching the
placement `sorted` produces. -/
def insertOrd (lt : α → α → Bool) (x : α) : List α → List α
  | [] => [x]
  | y :: ys => if lt x y then x :: y :: ys else y :: insertOrd lt x ys

/-- The `sorted(...)` builtin: stable sort under the strict order `lt`. -/
def sortedBy (lt : α → α → Bool) : List α → List α
  | [] => []
  | x :: xs => insertOrd lt x (sortedBy lt xs)

/-- Adjacent-pairs sortedness check under a (non-strict) order. -/
def isSortedBy (le : α → α → Bool) : List α → Bool
  | [] => true
  | [_] => true
  | x :: y :: t => le x y && isSortedBy le (y :: t)

/-- `DesktopIniService.__init__`: skip names are lowercased once. -/
def mkSkipNames (cfg : List Str) : List Str := cfg.map lowerStr

/-- `DesktopIniService.list_subfolders`.  A non-existing parent yields `[]`.
`scanFail = some k` models a `PermissionError` raised by the scandir
iteration after it yielded its first `k` entries (`k = 0`: opening the
handle itself fails): the `except PermissionError` clause then returns the
subfolders accumulated so far WITHOUT sorting them.  Entries whose `is_dir`
check raises are skipped, non-directories are skipped, and entries whose
lowercased name is in the skip set are skipped; a completed scan
(`scanFail = none`) returns the survivors sorted (Windows path order). -/
def list_subfolders (cfg : List Str) (parent : Str) (parentExists : Bool)
    (scanFail : Option Nat) (entries : List DirEntry) : List MPath :=
  if parentExists = false then []
  else
    match scanFail with
    | some k =>
      ((entries.take k).filter (fun e =>
          ¬ e.permDenied ∧ e.isDir ∧ lowerStr e.name ∉ mkSkipNames cfg)).map
        (fun e => ⟨parent, e.name⟩)
    | none =>
      sortedBy pathLt
        ((entries.filter (fun e =>
            ¬ e.permDenied ∧ e.isDir ∧ lowerStr e.name ∉ mkSkipNames cfg)).map
          (fun e => ⟨parent, e.name⟩))

/-- Outcome of the network interaction of one `send_payload` call:
`create_connection` (with its one-second timeout) either raises an
`OSError`, or the subsequent `sendall` raises an `OSError`, or both succeed
and the utf-8 payload is delivered. -/
inductive NetOutcome where
  | connectError
  | sendError
  | delivered
deriving DecidableEq, Repr

/-- The body of the `try` block in `SingleInstance.send_payload`. -/
def send_payload_attempt (net : NetOutcome) : Except Unit Unit :=
  match net with
  | .connectError => .error ()
  | .sendError => .error ()
  | .delivered => .ok ()

/-- `SingleInstance.send_payload`: any `OSError` (connection or timeout) is
converted to `False`; success returns `True`.  `payload.encode("utf-8")` is
total on text and cannot fail. -/
def send_payload (net : Str → NetOutcome) (payload : Str) : Bool :=
  match send_payload_attempt (net payload) with
  | .ok _ => true
  | .error _ => false

/-- Whether the payload was delivered to the rendezvous endpoint. -/
def netDelivered (n : NetOutcome) : Bool :=
  match n with
  | .delivered => true
  | _ => false

/-- A table row (`FolderRemark`). -/
structure RowState where
  name : Str
  path : Str
  original_remark : Str
  current_remark : Str
deriving DecidableEq, Repr

/-- `MainApp._save_changes` over the dirty rows: each dirty row gets an
independent `write_info_tip` attempt (`wr`, keyed by path and remark); a
success updates `original_remark` and records the name, a failure records
the name with the error; other rows are untouched and the loop always
continues.  Returns (rows afterwards, success names, failure reports). -/
def save_changes (wr : Str → Str → Except WErr Unit) :
    List RowState → List RowState × List Str × List (Str × WErr)
  | [] => ([], [], [])
  | r :: rest =>
    let (rs, ss, fs) := save_changes wr rest
    if r.current_remark = r.original_remark then (r :: rs, ss, fs)
    else
      match wr r.path r.current_remark with
      | .ok _ => ({ r with original_remark := r.current_remark } :: rs,
                  r.name :: ss, fs)
      | .error e => (r :: rs, ss, (r.name, e) :: fs)

theorem stripR_append (a b : Str) :
    stripR (a ++ b) = if stripR b = [] then stripR a else a ++ stripR b := by
  induction a with
  | nil =>
    by_cases hb : stripR b = [] <;> simp [hb, stripR]
  | cons c a' ih =>
    by_cases hb : stripR b = [] <;>
      simp only [List.cons_append, stripR, ih, hb, if_true, if_false,
        reduceIte] <;>
      cases h' : stripR a' <;> cases hb' : (a' ++ stripR b) <;>
        simp_all [stripR]

theorem stripL_cons_not_ws {c : Char} {t : Str} (h : pyWs c = false) :
    stripL (c :: t) = c :: t := by
  simp [stripL, List.dropWhile_cons, h]

theorem stripL_cons_ws {c : Char} {t : Str} (h : pyWs c = true) :
    stripL (c :: t) = stripL t := by
  simp [stripL, List.dropWhile_cons, h]

theorem stripR_front (s : Str) : stripR s <+: s := by
  induction s with
  | nil => simp [stripR]
  | cons c t ih =>
    simp only [stripR]
    cases h : stripR t with
    | nil =>
      by_cases hc : pyWs c <;> simp [hc]
    | cons x xs =>
      rw [h] at ih
      exact (List.prefix_cons_inj c).mpr ih

theorem stripL_suffix (s : Str) : stripL s <:+ s := by
  induction s with
  | nil => simp [stripL]
  | cons c t ih =>
    by_cases hc : pyWs c
    · rw [stripL_cons_ws hc]
      exact ih.trans (List.suffix_cons c t)
    · rw [stripL_cons_not_ws (by simpa using hc)]

theorem strip_id_parts {s : Str} (h : pyStrip s = s) :
    stripL s = s ∧ stripR s = s := by
  have h3 : stripR (stripL s) = s := h
  have h2 : (stripR (stripL s)).length ≤ (stripL s).length :=
    (stripR_front (stripL s)).length_le
  have h1 : (stripL s).length ≤ s.length := (stripL_suffix s).length_le
  have hlen := congrArg List.length h3
  have hL : stripL s = s := (stripL_suffix s).eq_of_length (by omega)
  rw [hL] at h3
  exact ⟨hL, h3⟩

theorem head_not_ws {c : Char} {t : Str} (h : stripL (c :: t) = c :: t) :
    pyWs c = false := by
  by_contra hc
  have hc' : pyWs c = true := by simpa using hc
  rw [stripL_cons_ws hc'] at h
  have := (stripL_suffix t).length_le
  have := congrArg List.length h
  simp at this
  omega

theorem stripR_eq_nil_append {a b : Str} (hb : stripR b ≠ []) :
    stripR (a ++ b) = a ++ stripR b := by
  rw [stripR_append]
  simp [hb]

/-- `interpGo` is the identity on `%`-free text (given at least one unit of
depth budget). -/
theorem interpGo_no_percent {look : Str → Option Str} {fuel : Nat} {v : Str}
    (h : '%' ∉ v) : interpGo look (fuel + 1) v = .ok v := by
  induction v with
  | nil => simp [interpGo]
  | cons c rest ih =>
    have hc : ¬ c = '%' := by
      intro hx
      exact h (by simp [hx])
    have hrest : '%' ∉ rest := fun hx => h (by simp [hx])
    rw [interpGo]
    simp [hc, ih hrest]
    all_goals
      first
        | exact fun _ hcc _ => hc hcc
        | exact fun hcc => hc hcc

/-- `parser.get` returns a `%`-free stored value unchanged. -/
theorem interpolateValue_no_percent {look : Str → Option Str} {v : Str}
    (h : '%' ∉ v) : interpolateValue look v = .ok v := by
  rw [interpolateValue]
  exact interpGo_no_percent h

theorem dropPercentPairs_no_percent {s : Str} (h : '%' ∉ s) :
    dropPercentPairs s = s := by
  induction s with
  | nil => simp [dropPercentPairs]
  | cons c rest ih =>
    have hc : ¬ c = '%' := by
      intro hx
      exact h (by simp [hx])
    have hrest : '%' ∉ rest := fun hx => h (by simp [hx])
    rw [dropPercentPairs]
    simp [hc, ih hrest]
    all_goals
      first
        | exact fun _ hcc _ => hc hcc
        | exact fun hcc => hc hcc

theorem dropKeyRefs_no_percent {s : Str} (h : '%' ∉ s) :
    dropKeyRefs s = s := by
  induction s with
  | nil => simp [dropKeyRefs]
  | cons c rest ih =>
    have hc : ¬ c = '%' := by
      intro hx
      exact h (by simp [hx])
    have hrest : '%' ∉ rest := fun hx => h (by simp [hx])
    rw [dropKeyRefs]
    simp [hc, ih hrest]
    all_goals
      first
        | exact fun _ hcc _ => hc hcc
        | exact fun hcc => hc hcc

/-- `before_set` accepts any `%`-free value. -/
theorem badPercent_no_percent {v : Str} (h : '%' ∉ v) :
    badPercent v = false := by
  rw [badPercent, dropPercentPairs_no_percent h, dropKeyRefs_no_percent h]
  simpa using h

/-- A section name that the serialized header line reproduces exactly:
nonempty (`[^]]+`), no newline, no carriage return, no closing bracket. -/
def wfName (n : Str) : Prop := n ≠ [] ∧ '\n' ∉ n ∧ '\r' ∉ n ∧ ']' ∉ n

/-- An option key that the serialized option line reproduces exactly:
nonempty, equal to its own strip, free of newlines and delimiters, and not
starting like a section header or comment line. -/
def wfKey (k : Str) : Prop :=
  k ≠ [] ∧ pyStrip k = k ∧ '\n' ∉ k ∧ '\r' ∉ k ∧ '=' ∉ k ∧ ':' ∉ k ∧
  k.head? ≠ some '[' ∧ k.head? ≠ some '#' ∧ k.head? ≠ some ';'

/-- A single-line option value that round-trips through write and re-read:
equal to its own strip, free of newlines, and free of `%` (so interpolation
and the `items` check leave it alone). -/
def wfVal (v : Str) : Prop := pyStrip v = v ∧ '\n' ∉ v ∧ '\r' ∉ v ∧ '%' ∉ v

def wfSec (s : Str × List (Str × Str)) : Prop :=
  wfName s.1 ∧ (s.2.map Prod.fst).Nodup ∧ ∀ p ∈ s.2, wfKey p.1 ∧ wfVal p.2

/-- A well-formed document: what this program itself writes, and the shape
under which the sidecar round-trips byte-exactly. -/
def wfDoc (d : Doc) : Prop := (d.map Prod.fst).Nodup ∧ ∀ s ∈ d, wfSec s

theorem replaceNl_no_newline {s : Str} (h : '\n' ∉ s) : replaceNl s = s := by
  induction s with
  | nil => simp [replaceNl]
  | cons c rest ih =>
    have hc : ¬ c = '\n' := fun hx => h (by simp [hx])
    have hrest : '\n' ∉ rest := fun hx => h (by simp [hx])
    simp only [replaceNl, List.flatMap_cons, hc, if_false, reduceIte,
      List.singleton_append, List.cons.injEq, true_and]
    simpa [replaceNl] using ih hrest

theorem splitLines_append_line {l t : Str} (h : '\n' ∉ l) :
    splitLines (l ++ '\n' :: t) = l :: splitLines t := by
  induction l with
  | nil => simp [splitLines]
  | cons c l' ih =>
    have hc : ¬ c = '\n' := fun hx => h (by simp [hx])
    have hl : '\n' ∉ l' := fun hx => h (by simp [hx])
    simp only [List.cons_append, splitLines, hc, if_false, reduceIte,
      List.append_eq, ih hl]

/-- Splitting the serialized lines recovers them, plus the final empty
pseudo-line after the terminating newline. -/
theorem splitLines_unlines {ls : List Str} (h : ∀ l ∈ ls, '\n' ∉ l) :
    splitLines (unlines ls) = ls ++ [[]] := by
  induction ls with
  | nil => simp [unlines, splitLines]
  | cons l ls' ih =>
    have h1 : '\n' ∉ l := h l (by simp)
    have h2 : ∀ x ∈ ls', '\n' ∉ x := fun x hx => h x (by simp [hx])
    have : unlines (l :: ls') = l ++ '\n' :: unlines ls' := by
      simp [unlines]
    rw [this, splitLines_append_line h1, ih h2]
    simp

theorem takeToChar_append {n rest : Str} {stop : Char} (h : stop ∉ n) :
    takeToChar stop (n ++ stop :: rest) = some (n, rest) := by
  induction n with
  | nil => simp [takeToChar]
  | cons c n' ih =>
    have hc : ¬ c = stop := fun hx => h (by simp [hx])
    have hn : stop ∉ n' := fun hx => h (by simp [hx])
    simp [takeToChar, hc, ih hn]

theorem matchHeader_bracket {n : Str} (hne : n ≠ []) (hnb : ']' ∉ n) :
    matchHeader ('[' :: (n ++ [']'])) = some n := by
  have : takeToChar ']' (n ++ ']' :: []) = some (n, []) := takeToChar_append hnb
  simp [matchHeader, this, hne]

theorem matchHeader_not_bracket {c : Char} {r : Str} (h : c ≠ '[') :
    matchHeader (c :: r) = none := by
  simp [matchHeader, h]

theorem splitDelim_append {k rest : Str} {d : Char}
    (hk : '=' ∉ k ∧ ':' ∉ k) (hd : d = '=' ∨ d = ':') :
    splitDelim (k ++ d :: rest) = some (k, rest) := by
  induction k with
  | nil =>
    rcases hd with h | h <;> simp [splitDelim, h]
  | cons c k' ih =>
    have hc : ¬ (c = '=' ∨ c = ':') := by
      rintro (hx | hx)
      · exact hk.1 (by simp [hx])
      · exact hk.2 (by simp [hx])
    have hk' : '=' ∉ k' ∧ ':' ∉ k' :=
      ⟨fun hx => hk.1 (by simp [hx]), fun hx => hk.2 (by simp [hx])⟩
    have hcb : ((c = '=' : Bool) || (c = ':' : Bool)) = false := by
      simp only [Bool.or_eq_false_iff, decide_eq_false_iff_not]
      exact ⟨fun hx => hc (Or.inl hx), fun hx => hc (Or.inr hx)⟩
    simp [splitDelim, hcb, ih hk']

theorem pyStrip_nil : pyStrip [] = [] := by decide

theorem stripR_cons_not_ws {c : Char} {t : Str} (hc : pyWs c = false) :
    stripR (c :: t) = c :: stripR t := by
  rw [stripR]
  cases h : stripR t <;> simp [hc, h]

theorem pyStrip_cons_not_ws {c : Char} {t : Str} (hc : pyWs c = false) :
    pyStrip (c :: t) = c :: stripR t := by
  rw [pyStrip, stripL_cons_not_ws hc, stripR_cons_not_ws hc]

theorem pyStrip_header (n : Str) :
    pyStrip ('[' :: (n ++ [']'])) = '[' :: (n ++ [']']) := by
  have h1 : pyStrip ('[' :: (n ++ [']'])) = '[' :: stripR (n ++ [']']) :=
    pyStrip_cons_not_ws (by decide)
  have h2 : stripR (n ++ [']']) = n ++ [']'] := by
    rw [stripR_eq_nil_append (by decide)]
    simp [show stripR [']'] = [']'] by decide]
  exact h1.trans (by rw [h2])

/-- A line whose stripped form is nonempty and non-comment, and which starts
with a non-whitespace character, is never a continuation, whatever the
parser state. -/
theorem parseStep_flush {st : PSt} {l val : Str} {c : Char} {rest : Str}
    (hs : pyStrip l = val) (hval : val = c :: rest)
    (hcm : (c = '#' || c = ';') = false)
    (hind : (l.takeWhile pyWs).length = 0) :
    parseStep st l = parseNew st val 0 := by
  subst hval
  rw [parseStep]
  simp only [hs, hcm, hind, Bool.false_eq_true, if_false, reduceIte]
  rcases st with ⟨d, cur, co, ind⟩
  cases cur <;> cases co <;> cases ind <;>
    simp [Nat.not_lt_zero]

theorem takeWhile_len_zero {c : Char} {t : Str} (hc : pyWs c = false) :
    ((c :: t).takeWhile pyWs).length = 0 := by
  simp [List.takeWhile_cons, hc]

theorem parseStep_header {st : PSt} {n : Str} (hne : n ≠ []) (hnb : ']' ∉ n)
    (hf1 : n ∉ st.done.map Prod.fst) (hf2 : st.cur.map Prod.fst ≠ some n) :
    parseStep st ('[' :: (n ++ [']'])) =
      .ok ⟨st.done ++ st.cur.toList, some (n, []), none, some 0⟩ := by
  rw [parseStep_flush (pyStrip_header n) rfl (by decide)
        (takeWhile_len_zero (by decide))]
  rw [parseNew]
  have hm : matchHeader ('[' :: (n ++ [']'])) = some n :=
    matchHeader_bracket hne hnb
  simp only [hm]
  rw [if_neg]
  · rintro (h | h)
    · exact hf1 h
    · exact hf2 h

theorem pyStrip_pairLine {k v : Str}
    (hkne : k ≠ []) (hks : pyStrip k = k)
    (hv : pyStrip v = v) (hvn : '\n' ∉ v) :
    pyStrip (pairLine k v) =
      if v = [] then k ++ [' ', '='] else pairLine k v := by
  obtain ⟨c, k', rfl⟩ : ∃ c k', k = c :: k' := by
    cases k with
    | nil => exact absurd rfl hkne
    | cons c k' => exact ⟨c, k', rfl⟩
  have hws : pyWs c = false := head_not_ws (strip_id_parts hks).1
  have hkR : stripR k' = k' := by
    have h2 := (strip_id_parts hks).2
    rw [stripR_cons_not_ws hws] at h2
    simpa using h2
  rw [pairLine, replaceNl_no_newline hvn]
  have hshape : (c :: k') ++ ' ' :: '=' :: ' ' :: v =
      c :: (k' ++ ([' ', '=', ' '] ++ v)) := by simp
  rw [hshape, pyStrip_cons_not_ws hws]
  rw [stripR_append k' ([' ', '=', ' '] ++ v)]
  by_cases hve : v = []
  · subst hve
    simp [show stripR [' ', '=', ' '] = [' ', '='] by decide, hkR]
  · have hvR : stripR v = v := (strip_id_parts hv).2
    rw [stripR_append [' ', '=', ' '] v, hvR]
    simp [hve, hvR]

theorem stripR_key_space {k : Str} (hk : stripR k = k) :
    stripR (k ++ [' ']) = k := by
  rw [stripR_append]
  simp [show stripR [' '] = ([] : Str) by decide, hk]

theorem parseStep_option {st : PSt} {nm : Str} {ps : List (Str × List Str)}
    {k v : Str}
    (hcur : st.cur = some (nm, ps))
    (hk : wfKey k) (hv : pyStrip v = v) (hvn : '\n' ∉ v)
    (hdup : k ∉ ps.map Prod.fst) :
    parseStep st (pairLine k v) =
      .ok { st with cur := some (nm, ps ++ [(k, [v])]), curOpt := some k,
                    indent := some 0 } := by
  obtain ⟨hkne, hks, hkn, hkr, hkeq, hkcol, hh1, hh2, hh3⟩ := hk
  obtain ⟨c, k', rfl⟩ : ∃ c k', k = c :: k' := by
    cases k with
    | nil => exact absurd rfl hkne
    | cons c k' => exact ⟨c, k', rfl⟩
  have hc_br : ¬ c = '[' := fun h => hh1 (by simp [h])
  have hc_hash : ¬ c = '#' := fun h => hh2 (by simp [h])
  have hc_semi : ¬ c = ';' := fun h => hh3 (by simp [h])
  have hws : pyWs c = false := head_not_ws (strip_id_parts hks).1
  have hstrip := pyStrip_pairLine hkne hks hv hvn
  have hcm : ((c = '#' : Bool) || (c = ';' : Bool)) = false := by
    simp [hc_hash, hc_semi]
  have hind : ((pairLine (c :: k') v).takeWhile pyWs).length = 0 := by
    have : pairLine (c :: k') v = c :: (k' ++ ' ' :: '=' :: ' ' :: replaceNl v) := by
      simp [pairLine]
    rw [this]
    exact takeWhile_len_zero hws
  have hkey_delim : '=' ∉ ((c :: k') ++ [' ']) ∧ ':' ∉ ((c :: k') ++ [' ']) := by
    constructor
    · intro h
      rcases List.mem_append.mp h with h | h
      · exact hkeq h
      · simp at h
    · intro h
      rcases List.mem_append.mp h with h | h
      · exact hkcol h
      · simp at h
  have hkR : stripR ((c :: k') ++ [' ']) = c :: k' :=
    stripR_key_space (strip_id_parts hks).2
  by_cases hve : v = []
  · subst hve
    have hval : pyStrip (pairLine (c :: k') []) = (c :: k') ++ [' ', '='] := by
      rw [hstrip]
      simp
    rw [parseStep_flush hval rfl hcm hind]
    rw [parseNew]
    have hmh : matchHeader ((c :: k') ++ [' ', '=']) = none := by
      rw [show ((c :: k') ++ [' ', '='] : Str) = c :: (k' ++ [' ', '=']) by simp]
      exact matchHeader_not_bracket hc_br
    simp only [hmh, hcur]
    have hsd : splitDelim ((c :: k') ++ [' ', '=']) =
        some ((c :: k') ++ [' '], []) := by
      rw [show ((c :: k') ++ [' ', '=' ] : Str) =
            ((c :: k') ++ [' ']) ++ '=' :: [] by simp]
      exact splitDelim_append hkey_delim (Or.inl rfl)
    simp only [hsd, hkR, pyStrip_nil]
    simp [hdup]
  · have hval : pyStrip (pairLine (c :: k') v) = pairLine (c :: k') v := by
      rw [hstrip]
      simp [hve]
    have hpl : pairLine (c :: k') v =
        c :: (k' ++ ' ' :: '=' :: ' ' :: replaceNl v) := by
      simp [pairLine]
    rw [parseStep_flush hval hpl hcm hind]
    rw [parseNew]
    have hmh : matchHeader (pairLine (c :: k') v) = none := by
      rw [hpl]
      exact matchHeader_not_bracket hc_br
    simp only [hmh, hcur]
    have hsd : splitDelim (pairLine (c :: k') v) =
        some ((c :: k') ++ [' '], ' ' :: v) := by
      rw [pairLine, replaceNl_no_newline hvn,
        show ((c :: k') ++ ' ' :: '=' :: ' ' :: v : Str) =
          ((c :: k') ++ [' ']) ++ '=' :: (' ' :: v) by simp]
      exact splitDelim_append hkey_delim (Or.inl rfl)
    simp only [hsd, hkR]
    have hpv : pyStrip (' ' :: v) = v := by
      rw [pyStrip, stripL_cons_ws (by decide)]
      exact hv
    simp only [hpv]
    simp [hdup]

theorem parseStep_blank_app {st : PSt} {nm : Str} {ps : List (Str × List Str)}
    {k : Str}
    (hcur : st.cur = some (nm, ps)) (hopt : st.curOpt = some k) :
    parseStep st [] = .ok { st with cur := some (nm, appendToKey ps k []) } := by
  rw [parseStep]
  simp only [pyStrip_nil]
  rw [hcur, hopt]
  simp [hcur]

theorem parseStep_blank_none {st : PSt} (hopt : st.curOpt = none) :
    parseStep st [] = .ok { st with indent := none } := by
  rw [parseStep]
  simp only [pyStrip_nil]
  rw [hopt]
  cases h : st.cur <;> simp

theorem parseLinesGo_append (st : PSt) (xs ys : List Str) :
    parseLinesGo st (xs ++ ys) =
      match parseLinesGo st xs with
      | .ok st' => parseLinesGo st' ys
      | .error e => .error e := by
  induction xs generalizing st with
  | nil => simp [parseLinesGo]
  | cons l ls ih =>
    rw [List.cons_append, parseLinesGo]
    cases h : parseStep st l <;> simp [parseLinesGo, h, ih]

/-- Intermediate (line-list) form of freshly parsed options. -/
def storedPlain (ps : List (Str × Str)) : List (Str × List Str) :=
  ps.map (fun p => (p.1, [p.2]))

/-- Intermediate form of a section's options after the section's trailing
blank line appended an empty line to the last option. -/
def secStored : List (Str × Str) → List (Str × List Str)
  | [] => []
  | [p] => [(p.1, [p.2, []])]
  | p :: ps => (p.1, [p.2]) :: secStored ps

/-- The option that receives continuation lines after a run of option lines. -/
def lastOpt (opt : Option Str) : List (Str × Str) → Option Str
  | [] => opt
  | p :: ps => lastOpt (some p.1) ps

theorem lastOpt_irrel {ps : List (Str × Str)} (hne : ps ≠ []) (o o' : Option Str) :
    lastOpt o ps = lastOpt o' ps := by
  cases ps with
  | nil => exact absurd rfl hne
  | cons p t => simp [lastOpt]

theorem lastOpt_mem {ps : List (Str × Str)} {o : Option Str} {k : Str}
    (h : lastOpt o ps = some k) (hne : ps ≠ []) : k ∈ ps.map Prod.fst := by
  induction ps generalizing o with
  | nil => exact absurd rfl hne
  | cons p t ih =>
    rw [lastOpt] at h
    cases t with
    | nil =>
      rw [lastOpt] at h
      simp at h
      simp [h]
    | cons q u =>
      have := ih h (by simp)
      simp at this ⊢
      tauto

theorem appendToKey_fresh {L : List (Str × List Str)} {k : Str} {x : Str}
    (h : k ∉ L.map Prod.fst) : appendToKey L k x = L := by
  induction L with
  | nil => simp [appendToKey]
  | cons p t ih =>
    have h1 : ¬ p.1 = k := fun hx => h (by simp [hx])
    have h2 : k ∉ t.map Prod.fst := fun hx => h (by simp [hx])
    cases p with
    | mk a b => simp at h1 ⊢; simp [appendToKey, h1, ih h2]

theorem appendToKey_secStored {ps : List (Str × Str)} {k : Str}
    (hnd : (ps.map Prod.fst).Nodup) (hk : lastOpt none ps = some k) :
    appendToKey (storedPlain ps) k [] = secStored ps := by
  induction ps with
  | nil => simp [lastOpt] at hk
  | cons p t ih =>
    cases t with
    | nil =>
      rw [lastOpt, lastOpt] at hk
      simp at hk
      subst hk
      simp [storedPlain, appendToKey, secStored]
    | cons q u =>
      have htne : (q :: u) ≠ ([] : List (Str × Str)) := by simp
      have hk' : lastOpt none (q :: u) = some k := by
        rw [lastOpt] at hk
        rw [lastOpt_irrel htne none (some p.1)]
        exact hk
      have hkmem : k ∈ (q :: u).map Prod.fst := lastOpt_mem hk' htne
      have hp1 : ¬ p.1 = k := by
        intro hx
        rw [List.map_cons] at hnd
        exact (List.nodup_cons.mp hnd).1 (hx ▸ hkmem)
      have hnd' : ((q :: u).map Prod.fst).Nodup := by
        rw [List.map_cons] at hnd
        exact hnd.of_cons
      show appendToKey (storedPlain (p :: q :: u)) k [] = secStored (p :: q :: u)
      rw [show storedPlain (p :: q :: u) = (p.1, [p.2]) :: storedPlain (q :: u)
            by simp [storedPlain]]
      rw [appendToKey]
      simp only [hp1, if_false, reduceIte]
      rw [ih hnd' hk']
      rfl

/-- Effect of a run of serialized option lines on the parser state. -/
theorem parseLinesGo_pairs
    {done : List (Str × List (Str × List Str))} {nm : Str}
    {acc : List (Str × List Str)} {opt : Option Str}
    (pairs : List (Str × Str)) (rest : List Str)
    (hwf : ∀ p ∈ pairs, wfKey p.1 ∧ pyStrip p.2 = p.2 ∧ '\n' ∉ p.2)
    (hnd : (acc.map Prod.fst ++ pairs.map Prod.fst).Nodup) :
    parseLinesGo ⟨done, some (nm, acc), opt, some 0⟩
        (pairs.map (fun p => pairLine p.1 p.2) ++ rest) =
      parseLinesGo ⟨done, some (nm, acc ++ storedPlain pairs),
          lastOpt opt pairs, some 0⟩ rest := by
  induction pairs generalizing acc opt with
  | nil => simp [storedPlain, lastOpt]
  | cons p ps ih =>
    obtain ⟨hk, hv, hvn⟩ := hwf p (by simp)
    have hdup : p.1 ∉ acc.map Prod.fst := by
      have := (List.nodup_append.mp hnd).2.2
      intro hx
      exact this hx (by simp)
    have hwf2 : ∀ q ∈ ps, wfKey q.1 ∧ pyStrip q.2 = q.2 ∧ '\n' ∉ q.2 :=
      fun q hq => hwf q (by simp [hq])
    have hnd2 : ((acc ++ [(p.1, [p.2])]).map Prod.fst ++
        (ps.map Prod.fst)).Nodup := by
      simp only [List.map_append, List.map_cons, List.map_nil] at hnd ⊢
      rw [List.append_assoc]
      simpa using hnd
    rw [List.map_cons, List.cons_append, parseLinesGo,
      parseStep_option rfl hk hv hvn hdup]
    dsimp only
    rw [ih hwf2 hnd2]
    simp [storedPlain, lastOpt, List.append_assoc]

/-- Parser state after one serialized section block (header, options, blank
line): the previous section is pushed, the new section holds its options
(the trailing blank line having been appended to the last option's value
lines), and the indentation level reflects the last processed line. -/
def stateAfterSec (prev : PSt) (n : Str) (ps : List (Str × Str)) : PSt :=
  ⟨prev.done ++ prev.cur.toList, some (n, secStored ps), lastOpt none ps,
    if ps = [] then none else some 0⟩

theorem lastOpt_some {ps : List (Str × Str)} (hne : ps ≠ []) (o : Option Str) :
    ∃ k, lastOpt o ps = some k := by
  induction ps generalizing o with
  | nil => exact absurd rfl hne
  | cons p t ih =>
    cases t with
    | nil => exact ⟨p.1, rfl⟩
    | cons q u =>
      rw [lastOpt]
      exact ih (by simp) (some p.1)

/-- Effect of one serialized section block on the parser state. -/
theorem parseLinesGo_sec {st : PSt} {n : Str} {ps : List (Str × Str)}
    (rest : List Str) (hsec : wfSec (n, ps))
    (hf1 : n ∉ st.done.map Prod.fst) (hf2 : st.cur.map Prod.fst ≠ some n) :
    parseLinesGo st (sectionLines n ps ++ rest) =
      parseLinesGo (stateAfterSec st n ps) rest := by
  obtain ⟨hn, hnd, hwf⟩ := hsec
  have hwf2 : ∀ p ∈ ps, wfKey p.1 ∧ pyStrip p.2 = p.2 ∧ '\n' ∉ p.2 :=
    fun p hp => ⟨(hwf p hp).1, (hwf p hp).2.1, (hwf p hp).2.2.1⟩
  have hnd2 : (([] : List (Str × List Str)).map Prod.fst ++
      ps.map Prod.fst).Nodup := by
    simpa using hnd
  rw [show sectionLines n ps ++ rest =
        ('[' :: (n ++ [']'])) ::
          (ps.map (fun p => pairLine p.1 p.2) ++ ([] :: rest)) by
      simp [sectionLines]]
  rw [parseLinesGo, parseStep_header hn.1 hn.2.2.2 hf1 hf2]
  dsimp only
  rw [parseLinesGo_pairs ps ([] :: rest) hwf2 hnd2]
  simp only [List.nil_append]
  cases ps with
  | nil =>
    rw [parseLinesGo, parseStep_blank_none (by simp [lastOpt])]
    dsimp only
    simp [stateAfterSec, storedPlain, secStored, lastOpt]
  | cons q u =>
    obtain ⟨k, hk⟩ := @lastOpt_some (q :: u) (by simp) none
    rw [parseLinesGo, parseStep_blank_app rfl hk]
    dsimp only
    rw [appendToKey_secStored (by simpa using hnd) hk]
    simp [stateAfterSec, hk]

/-- Parser state after all serialized section blocks. -/
def docState (st : PSt) : Doc → PSt
  | [] => st
  | s :: d' => docState (stateAfterSec st s.1 s.2) d'

/-- Effect of the whole serialized body on the parser state. -/
theorem parseLinesGo_doc {st : PSt} {d : Doc} (rest : List Str)
    (hwf : ∀ s ∈ d, wfSec s)
    (hnd : (d.map Prod.fst).Nodup)
    (hdisj : ∀ s ∈ d, s.1 ∉ st.done.map Prod.fst ∧
      st.cur.map Prod.fst ≠ some s.1) :
    parseLinesGo st (docLines d ++ rest) =
      parseLinesGo (docState st d) rest := by
  induction d generalizing st with
  | nil => simp [docLines, docState]
  | cons s d' ih =>
    rw [show docLines (s :: d') ++ rest =
          sectionLines s.1 s.2 ++ (docLines d' ++ rest) by simp [docLines]]
    rw [parseLinesGo_sec _ (hwf s (by simp)) (hdisj s (by simp)).1
      (hdisj s (by simp)).2]
    have hnd' : (d'.map Prod.fst).Nodup := by
      rw [List.map_cons] at hnd
      exact hnd.of_cons
    have hdisj' : ∀ x ∈ d', x.1 ∉ (stateAfterSec st s.1 s.2).done.map Prod.fst ∧
        (stateAfterSec st s.1 s.2).cur.map Prod.fst ≠ some x.1 := by
      intro x hx
      have h1 := (hdisj x (by simp [hx])).1
      have h2 := (hdisj x (by simp [hx])).2
      have hxn : x.1 ≠ s.1 := by
        intro hxx
        rw [List.map_cons] at hnd
        exact (List.nodup_cons.mp hnd).1 (hxx ▸ List.mem_map_of_mem Prod.fst hx)
      constructor
      · rw [stateAfterSec]
        simp only [List.map_append, List.mem_append]
        rintro (h | h)
        · exact h1 h
        · cases hc : st.cur with
          | none => simp [hc] at h
          | some cι =>
            simp [hc] at h
            exact h2 (by simp [hc, h])
      · rw [stateAfterSec]
        simp [hxn.symm]
    rw [ih (fun x hx => hwf x (by simp [hx])) hnd' hdisj']
    rfl

theorem stripR_cons_congr {t t' : Str} (c : Char) (h : stripR t = stripR t') :
    stripR (c :: t) = stripR (c :: t') := by
  rw [stripR, stripR, h]

theorem stripR_append_congr (a : Str) {b b' : Str}
    (h : stripR b = stripR b') : stripR (a ++ b) = stripR (a ++ b') := by
  rw [stripR_append, stripR_append, h]

theorem stripR_joinNl_blank : ∀ ls : List Str,
    stripR (joinNl (ls ++ [[]])) = stripR (joinNl ls)
  | [] => by simp [joinNl]
  | [l] => by
    show stripR (joinNl [l, []]) = stripR (joinNl [l])
    rw [show joinNl [l, []] = l ++ '\n' :: joinNl [[]] from rfl]
    rw [show joinNl [[]] = ([] : Str) from rfl,
      show joinNl [l] = l from rfl]
    rw [stripR_append]
    simp [show stripR ['\n'] = ([] : Str) by decide]
  | l1 :: l2 :: rest => by
    have ih := stripR_joinNl_blank (l2 :: rest)
    show stripR (joinNl (l1 :: ((l2 :: rest) ++ [[]]))) =
      stripR (joinNl (l1 :: l2 :: rest))
    rw [show joinNl (l1 :: ((l2 :: rest) ++ [[]])) =
          l1 ++ '\n' :: joinNl ((l2 :: rest) ++ [[]]) from rfl]
    rw [show joinNl (l1 :: l2 :: rest) = l1 ++ '\n' :: joinNl (l2 :: rest)
          from rfl]
    exact stripR_append_congr l1 (stripR_cons_congr '\n' ih)

/-- Appending an empty continuation line to any option leaves the finalized
values unchanged. -/
theorem finalizePairs_appendBlank {L : List (Str × List Str)} {k : Str} :
    finalizePairs (appendToKey L k []) = finalizePairs L := by
  induction L with
  | nil => simp [appendToKey]
  | cons p t ih =>
    cases p with
    | mk a b =>
      rw [appendToKey]
      by_cases h : a = k
      · simp only [h, if_true, reduceIte]
        simp [finalizePairs, stripR_joinNl_blank]
      · simp only [h, if_false, reduceIte]
        simp only [finalizePairs, List.map_cons] at ih ⊢
        rw [ih]

theorem finalizePairs_secStored : ∀ {ps : List (Str × Str)},
    (∀ p ∈ ps, stripR p.2 = p.2) → finalizePairs (secStored ps) = ps
  | [], _ => by simp [secStored, finalizePairs]
  | [p], hv => by
    have hp := hv p (by simp)
    show finalizePairs [(p.1, [p.2, []])] = [p]
    simp [finalizePairs]
    rw [show joinNl [p.2, []] = p.2 ++ '\n' :: joinNl [[]] from rfl,
      show joinNl [[]] = ([] : Str) from rfl]
    rw [stripR_append]
    simp [show stripR ['\n'] = ([] : Str) by decide, hp]
  | p :: q :: u, hv => by
    have ih := @finalizePairs_secStored (q :: u)
      (fun x hx => hv x (by simp [hx]))
    have hp := hv p (by simp)
    show finalizePairs ((p.1, [p.2]) :: secStored (q :: u)) = p :: q :: u
    simp only [finalizePairs, List.map_cons] at ih ⊢
    rw [show joinNl [p.2] = p.2 from rfl, hp, ih]

/-- A blank line never changes the finalized document. -/
theorem finalizeSt_blank (st : PSt) :
    ∃ st', parseStep st [] = .ok st' ∧ finalizeSt st' = finalizeSt st := by
  cases hc : st.cur with
  | none =>
    cases ho : st.curOpt with
    | none =>
      refine ⟨_, parseStep_blank_none ho, ?_⟩
      simp [finalizeSt]
    | some k =>
      refine ⟨{ st with indent := none }, ?_, by simp [finalizeSt]⟩
      rw [parseStep]
      simp only [pyStrip_nil]
      rw [hc]
      simp
  | some s =>
    cases ho : st.curOpt with
    | none =>
      refine ⟨_, parseStep_blank_none ho, ?_⟩
      simp [finalizeSt]
    | some k =>
      cases s with
      | mk n ps =>
        refine ⟨_, parseStep_blank_app hc ho, ?_⟩
        simp [finalizeSt, hc, finalizePairs_appendBlank]

theorem docLines_no_newline {d : Doc} (hwf : ∀ s ∈ d, wfSec s) :
    ∀ l ∈ docLines d, '\n' ∉ l := by
  induction d with
  | nil => intro l hl; simp [docLines] at hl
  | cons s d' ih =>
    intro l hl
    rw [show docLines (s :: d') = sectionLines s.1 s.2 ++ docLines d' by
      simp [docLines]] at hl
    rcases List.mem_append.mp hl with hl | hl
    · obtain ⟨hn, hnd, hw⟩ := hwf s (by simp)
      rw [sectionLines] at hl
      rcases List.mem_cons.mp hl with rfl | hl
      · intro hmem
        rcases List.mem_cons.mp hmem with h | h
        · exact absurd h.symm (by decide)
        · rcases List.mem_append.mp h with h | h
          · exact hn.2.1 h
          · simp at h
      · rcases List.mem_append.mp hl with hl | hl
        · obtain ⟨p, hp, rfl⟩ := List.mem_map.mp hl
          obtain ⟨hk, hv⟩ := hw p hp
          rw [pairLine, replaceNl_no_newline hv.2.1]
          intro hmem
          rcases List.mem_append.mp hmem with h | h
          · exact hk.2.2.1 h
          · rcases List.mem_cons.mp h with h | h
            · exact absurd h (by decide)
            · rcases List.mem_cons.mp h with h | h
              · exact absurd h (by decide)
              · rcases List.mem_cons.mp h with h | h
                · exact absurd h (by decide)
                · exact hv.2.1 h
        · simp at hl
          subst hl
          simp
    · exact ih (fun x hx => hwf x (by simp [hx])) l hl

theorem docState_decomp (st : PSt) (d : Doc) :
    (docState st d).done ++ (docState st d).cur.toList =
      (st.done ++ st.cur.toList) ++ d.map (fun s => (s.1, secStored s.2)) := by
  induction d generalizing st with
  | nil => simp [docState]
  | cons s d' ih =>
    rw [docState, ih]
    rw [stateAfterSec]
    simp [List.append_assoc]

theorem finalizeSt_docState {d : Doc} (hsecs : ∀ s ∈ d, wfSec s) :
    finalizeSt (docState pInit d) = d := by
  rw [finalizeSt, docState_decomp]
  rw [show pInit.done ++ pInit.cur.toList = [] from rfl, List.nil_append,
    List.map_map]
  have hcongr : ∀ s ∈ d,
      ((fun x => (x.1, finalizePairs x.2)) ∘
        (fun x => (x.1, secStored x.2))) s = id s := by
    intro s hs
    obtain ⟨_, _, hw⟩ := hsecs s hs
    have hv : ∀ p ∈ s.2, stripR p.2 = p.2 :=
      fun p hp => (strip_id_parts ((hw p hp).2).1).2
    simp [finalizePairs_secStored hv]
  rw [List.map_congr_left hcongr, List.map_id]

/-- The serialized form of a well-formed document reparses to exactly that
document: `read_string` after `parser.write` is the identity here. -/
theorem parse_write_config {d : Doc} (hwf : wfDoc d) :
    parseText (write_config_text d) = .ok d := by
  obtain ⟨hnd, hsecs⟩ := hwf
  rw [parseText, write_config_text,
    splitLines_unlines (docLines_no_newline hsecs)]
  rw [parseLinesGo_doc [[]] hsecs hnd (by intro s hs; simp [pInit])]
  obtain ⟨st', hstep, hfin⟩ := finalizeSt_blank (docState pInit d)
  rw [show ([[]] : List Str) = [] :: [] from rfl, parseLinesGo, hstep]
  dsimp only
  rw [parseLinesGo]
  simp only [Except.map]
  rw [hfin, finalizeSt_docState hsecs]

theorem lowerStr_infoTipKey : lowerStr infoTipKey = infoTipLower := by decide

theorem findSec_of_not_hasSec {d : Doc} {n : Str} (h : hasSec d n = false) :
    findSec d n = none := by
  induction d with
  | nil => simp [findSec]
  | cons s t ih =>
    rw [hasSec] at h
    simp only [List.any_cons, Bool.or_eq_false_iff] at h
    rw [findSec, List.find?]
    simp only [h.1]
    exact ih (by rw [hasSec]; exact h.2)

theorem findSec_append_one {d : Doc} {n : Str} {ps : List (Str × Str)}
    (h : hasSec d n = false) :
    findSec (d ++ [(n, ps)]) n = some ps := by
  induction d with
  | nil => simp [findSec, List.find?]
  | cons s t ih =>
    rw [hasSec] at h
    simp only [List.any_cons, Bool.or_eq_false_iff] at h
    rw [List.cons_append, findSec, List.find?]
    simp only [h.1]
    exact ih (by rw [hasSec]; exact h.2)

theorem findSec_updateSec {d : Doc} {n : Str}
    {f : List (Str × Str) → List (Str × Str)} :
    findSec (updateSec d n f) n = (findSec d n).map f := by
  induction d with
  | nil => simp [updateSec, findSec]
  | cons s t ih =>
    rw [updateSec]
    by_cases h : s.1 = n
    · simp [findSec, List.find?, h]
    · simp only [h, if_false, reduceIte]
      rw [findSec, List.find?_cons_of_neg _ (by simp [h]),
        findSec, List.find?_cons_of_neg _ (by simp [h])]
      exact ih

theorem updateSec_map_fst {d : Doc} {n : Str}
    {f : List (Str × Str) → List (Str × Str)} :
    (updateSec d n f).map Prod.fst = d.map Prod.fst := by
  induction d with
  | nil => simp [updateSec]
  | cons s t ih =>
    rw [updateSec]
    by_cases h : s.1 = n <;> simp [h, ih]

theorem setKey_fresh {ps : List (Str × Str)} {k v : Str}
    (h : k ∉ ps.map Prod.fst) : setKey ps k v = ps ++ [(k, v)] := by
  induction ps with
  | nil => simp [setKey]
  | cons p t ih =>
    have h1 : ¬ p.1 = k := fun hx => h (by simp [hx])
    have h2 : k ∉ t.map Prod.fst := fun hx => h (by simp [hx])
    rw [setKey]
    simp [h1, ih h2]

theorem infoTipKey_not_in_filtered {ps : List (Str × Str)} :
    infoTipKey ∉ (ps.filter
      (fun p => ¬ lowerStr p.1 = infoTipLower)).map Prod.fst := by
  intro h
  obtain ⟨p, hp, hpk⟩ := List.mem_map.mp h
  have := List.of_mem_filter hp
  rw [hpk] at this
  simp [lowerStr_infoTipKey] at this

theorem itemsInterp_ok {ps : List (Str × Str)}
    (h : ∀ p ∈ ps, '%' ∉ p.2) : itemsInterp ps = .ok ps := by
  rw [itemsInterp]
  have hgo : ∀ qs : List (Str × Str), (∀ p ∈ qs, '%' ∉ p.2) →
      itemsInterp.itemsGo ps qs = .ok qs := by
    intro qs hqs
    induction qs with
    | nil => rw [itemsInterp.itemsGo]
    | cons q t ih =>
      cases q with
      | mk a b =>
        rw [itemsInterp.itemsGo]
        rw [interpolateValue_no_percent (hqs (a, b) (by simp))]
        rw [ih (fun p hp => hqs p (by simp [hp]))]
  exact hgo ps h

theorem mem_updateSec {d : Doc} {n : Str} {f}
    {s' : Str × List (Str × Str)} (h : s' ∈ updateSec d n f) :
    s' ∈ d ∨ ∃ ps, (n, ps) ∈ d ∧ s' = (n, f ps) := by
  induction d with
  | nil => simp [updateSec] at h
  | cons s t ih =>
    rw [updateSec] at h
    by_cases hs : s.1 = n
    · rw [if_pos hs] at h
      rcases List.mem_cons.mp h with rfl | h
      · right
        refine ⟨s.2, ?_, by rw [hs]⟩
        rw [← hs]
        exact List.mem_cons_self s t
      · left
        exact List.mem_cons_of_mem s h
    · rw [if_neg hs] at h
      rcases List.mem_cons.mp h with h' | h
      · left
        rw [h']
        exact List.mem_cons_self s t
      · rcases ih h with h | ⟨ps, hps, rfl⟩
        · left
          exact List.mem_cons_of_mem s h
        · right
          exact ⟨ps, List.mem_cons_of_mem s hps, rfl⟩

theorem wfSec_filter {n : Str} {ps : List (Str × Str)} {pred}
    (h : wfSec (n, ps)) : wfSec (n, ps.filter pred) := by
  obtain ⟨hn, hnd, hw⟩ := h
  exact ⟨hn, hnd.sublist ((ps.filter_sublist).map Prod.fst),
    fun p hp => hw p (List.mem_of_mem_filter hp)⟩

theorem setKey_map_fst {ps : List (Str × Str)} {k v : Str} :
    (setKey ps k v).map Prod.fst =
      if k ∈ ps.map Prod.fst then ps.map Prod.fst
      else ps.map Prod.fst ++ [k] := by
  induction ps with
  | nil => simp [setKey]
  | cons p t ih =>
    rw [setKey]
    by_cases h : p.1 = k
    · simp [h]
    · have h' : ¬ k = p.1 := fun hx => h hx.symm
      by_cases hm : k ∈ t.map Prod.fst <;>
        simp [h, h', hm, ih]

theorem mem_setKey {ps : List (Str × Str)} {k v : Str} {p : Str × Str}
    (h : p ∈ setKey ps k v) : p ∈ ps ∨ p = (k, v) := by
  induction ps with
  | nil =>
    rw [setKey] at h
    simp at h
    right
    simp [h]
  | cons q t ih =>
    rw [setKey] at h
    by_cases hq : q.1 = k
    · rw [if_pos hq] at h
      rcases List.mem_cons.mp h with rfl | h
      · right; rfl
      · left; exact List.mem_cons_of_mem q h
    · rw [if_neg hq] at h
      rcases List.mem_cons.mp h with h' | h
      · left
        rw [h']
        exact List.mem_cons_self q t
      · rcases ih h with h | h
        · left; exact List.mem_cons_of_mem q h
        · right; exact h

theorem wfSec_setKey {n : Str} {ps : List (Str × Str)} {k v : Str}
    (h : wfSec (n, ps)) (hk : wfKey k) (hv : wfVal v) :
    wfSec (n, setKey ps k v) := by
  obtain ⟨hn, hnd, hw⟩ := h
  refine ⟨hn, ?_, ?_⟩
  · rw [setKey_map_fst]
    by_cases hm : k ∈ ps.map Prod.fst
    · simp [hm, hnd]
    · rw [if_neg hm, List.nodup_append]
      refine ⟨hnd, by simp, ?_⟩
      intro a ha hak
      rw [List.mem_singleton] at hak
      exact hm (hak ▸ ha)
  · intro p hp
    rcases mem_setKey hp with h | rfl
    · exact hw p h
    · exact ⟨hk, hv⟩

theorem wfDoc_updateSec {d : Doc} {n : Str} {f}
    (hwf : wfDoc d) (hf : ∀ ps, wfSec (n, ps) → wfSec (n, f ps)) :
    wfDoc (updateSec d n f) := by
  obtain ⟨hnd, hsecs⟩ := hwf
  refine ⟨by rw [updateSec_map_fst]; exact hnd, ?_⟩
  intro s' hs'
  rcases mem_updateSec hs' with h | ⟨ps, hps, rfl⟩
  · exact hsecs s' h
  · exact hf ps (hsecs (n, ps) hps)

theorem removeSec_sublist (d : Doc) (n : Str) :
    List.Sublist (removeSec d n) d := by
  induction d with
  | nil => simp [removeSec]
  | cons s t ih =>
    rw [removeSec]
    by_cases h : s.1 = n
    · rw [if_pos h]
      exact List.sublist_cons_self s t
    · rw [if_neg h]
      exact ih.cons₂ s

theorem wfDoc_sublist {d d' : Doc} (h : List.Sublist d' d) (hwf : wfDoc d) :
    wfDoc d' :=
  ⟨hwf.1.sublist (h.map Prod.fst), fun s hs => hwf.2 s (h.subset hs)⟩

theorem wfDoc_append_empty_sec {d : Doc} (hwf : wfDoc d)
    (h : hasSec d shellClassInfo = false) :
    wfDoc (d ++ [(shellClassInfo, [])]) := by
  obtain ⟨hnd, hsecs⟩ := hwf
  have hfresh : shellClassInfo ∉ d.map Prod.fst := by
    intro hx
    obtain ⟨s, hs, hsn⟩ := List.mem_map.mp hx
    rw [hasSec] at h
    simp only [List.any_eq_false] at h
    exact absurd (by simpa using hsn) (by simpa using h s hs)
  refine ⟨?_, ?_⟩
  · rw [List.map_append, List.nodup_append]
    refine ⟨hnd, by simp, ?_⟩
    intro a ha hax
    simp at hax
    exact hfresh (hax ▸ ha)
  · intro s hs
    rcases List.mem_append.mp hs with h' | h'
    · exact hsecs s h'
    · rw [List.mem_singleton] at h'
      subst h'
      refine ⟨⟨by decide, by decide, by decide, by decide⟩, by simp, by simp⟩

theorem updateSec_updateSec {d : Doc} {n : Str} {f g} :
    updateSec (updateSec d n f) n g = updateSec d n (fun ps => g (f ps)) := by
  induction d with
  | nil => simp [updateSec]
  | cons s t ih =>
    rw [updateSec]
    by_cases h : s.1 = n
    · rw [if_pos h, updateSec, updateSec]
      simp [h]
    · rw [if_neg h, updateSec, if_neg h, updateSec, if_neg h, ih]

theorem updateSec_congr {d : Doc} {n : Str} {f g}
    (h : ∀ ps, findSec d n = some ps → f ps = g ps) :
    updateSec d n f = updateSec d n g := by
  induction d with
  | nil => simp [updateSec]
  | cons s t ih =>
    rw [updateSec, updateSec]
    by_cases hs : s.1 = n
    · have := h s.2 (by simp [findSec, List.find?, hs])
      simp [hs, this]
    · rw [if_neg hs, if_neg hs]
      have ih' := ih (fun ps hps => h ps ?_)
      · rw [ih']
      · rw [findSec, List.find?_cons_of_neg _ (by simp [hs])]
        exact hps

theorem updateSec_id {d : Doc} {n : Str} :
    updateSec d n (fun ps => ps) = d := by
  induction d with
  | nil => simp [updateSec]
  | cons s t ih =>
    rw [updateSec]
    by_cases h : s.1 = n
    · rw [if_pos h]
    · rw [if_neg h, ih]

theorem hasSec_of_findSec {d : Doc} {n : Str} {ps : List (Str × Str)}
    (h : findSec d n = some ps) : hasSec d n = true := by
  rw [findSec] at h
  rw [hasSec, List.any_eq_true]
  obtain ⟨s, hfind⟩ := Option.map_eq_some'.mp h
  exact ⟨s, List.mem_of_find?_eq_some hfind.1,
    by simpa using List.find?_some hfind.1⟩

theorem hasSec_false_of_findSec_none {d : Doc} {n : Str}
    (h : findSec d n = none) : hasSec d n = false := by
  rw [findSec, Option.map_eq_none'] at h
  rw [hasSec, List.any_eq_false]
  intro s hs
  have := List.find?_eq_none.mp h s hs
  simpa using this

theorem findSec_removeSec {d : Doc} {n : Str}
    (hnd : (d.map Prod.fst).Nodup) : findSec (removeSec d n) n = none := by
  induction d with
  | nil => simp [removeSec, findSec]
  | cons s t ih =>
    rw [removeSec]
    by_cases h : s.1 = n
    · rw [if_pos h]
      rw [findSec, Option.map_eq_none', List.find?_eq_none]
      intro x hx
      rw [List.map_cons] at hnd
      have hs := (List.nodup_cons.mp hnd).1
      simp only [decide_eq_true_eq]
      intro hxn
      exact hs (h ▸ hxn ▸ List.mem_map_of_mem Prod.fst hx)
    · rw [if_neg h]
      rw [findSec, List.find?_cons_of_neg _ (by simp [h])]
      rw [List.map_cons] at hnd
      exact ih (List.nodup_cons.mp hnd).2

theorem removeSec_append_fresh {d : Doc} {n : Str} {ps : List (Str × Str)}
    (h : hasSec d n = false) : removeSec (d ++ [(n, ps)]) n = d := by
  induction d with
  | nil => simp [removeSec]
  | cons s t ih =>
    rw [hasSec, List.any_cons, Bool.or_eq_false_iff] at h
    rw [List.cons_append, removeSec]
    have hs : ¬ s.1 = n := by simpa using h.1
    rw [if_neg hs, ih (by rw [hasSec]; exact h.2)]

theorem updateSec_length {d : Doc} {n : Str} {f} :
    (updateSec d n f).length = d.length := by
  have := congrArg List.length (updateSec_map_fst (d := d) (n := n) (f := f))
  simpa using this

theorem find_infotip_append {ps' : List (Str × Str)} {r : Str}
    (h : ∀ p ∈ ps', ¬ lowerStr p.1 = infoTipLower) :
    (ps' ++ [(infoTipKey, r)]).find?
        (fun p => lowerStr p.1 = infoTipLower) = some (infoTipKey, r) := by
  induction ps' with
  | nil => simp [List.find?, lowerStr_infoTipKey]
  | cons p t ih =>
    rw [List.cons_append,
      List.find?_cons_of_neg _ (by simpa using h p (by simp))]
    exact ih (fun q hq => h q (by simp [hq]))

theorem lookupExact_append_fresh {ps' : List (Str × Str)} {k v : Str}
    (h : k ∉ ps'.map Prod.fst) :
    lookupExact (ps' ++ [(k, v)]) k = some v := by
  induction ps' with
  | nil => simp [lookupExact, List.find?]
  | cons p t ih =>
    have h1 : ¬ p.1 = k := fun hx => h (by simp [hx])
    rw [lookupExact, List.cons_append,
      List.find?_cons_of_neg _ (by simpa using h1)]
    exact ih (fun hx => h (by simp [hx]))

theorem mem_of_findSec {d : Doc} {n : Str} {ps : List (Str × Str)}
    (h : findSec d n = some ps) : (n, ps) ∈ d := by
  rw [findSec] at h
  obtain ⟨s, hf, hsnd⟩ := Option.map_eq_some'.mp h
  have h1 : s.1 = n := by simpa using List.find?_some hf
  have h2 := List.mem_of_find?_eq_some hf
  have hseq : s = (n, ps) := by
    cases s with
    | mk a b =>
      simp at h1 hsnd
      simp [h1, hsnd]
  rwa [hseq] at h2

theorem findSec_isSome_of_hasSec {d : Doc} {n : Str} (h : hasSec d n = true) :
    ∃ ps, findSec d n = some ps := by
  rw [hasSec, List.any_eq_true] at h
  have hs : (List.find? (fun s => decide (s.1 = n)) d).isSome :=
    List.find?_isSome.mpr (by simpa using h)
  obtain ⟨x, hx⟩ := Option.isSome_iff_exists.mp hs
  exact ⟨x.2, by rw [findSec, hx]; rfl⟩

theorem infoTip_fresh_of_lower_free {ps : List (Str × Str)}
    (h : ∀ p ∈ ps, ¬ lowerStr p.1 = infoTipLower) :
    infoTipKey ∉ ps.map Prod.fst := by
  intro hx
  obtain ⟨p, hp, hpk⟩ := List.mem_map.mp hx
  exact h p hp (by rw [hpk, lowerStr_infoTipKey])

/-- The `.ShellClassInfo` section produced by `add_section` (when needed) and
the cleanup loop: present, well-formed, and free of `InfoTip` case variants. -/
theorem applyRemark_cleanup {d : Doc} (hwf : wfDoc d) :
    ∃ ps1,
      findSec (updateSec
          (if hasSec d shellClassInfo then d
            else d ++ [(shellClassInfo, [])]) shellClassInfo
          (fun ps => ps.filter (fun p => ¬ lowerStr p.1 = infoTipLower)))
        shellClassInfo = some ps1 ∧
      wfDoc (updateSec
          (if hasSec d shellClassInfo then d
            else d ++ [(shellClassInfo, [])]) shellClassInfo
          (fun ps => ps.filter (fun p => ¬ lowerStr p.1 = infoTipLower))) ∧
      (∀ p ∈ ps1, ¬ lowerStr p.1 = infoTipLower) ∧
      (updateSec
          (if hasSec d shellClassInfo then d
            else d ++ [(shellClassInfo, [])]) shellClassInfo
          (fun ps => ps.filter (fun p => ¬ lowerStr p.1 = infoTipLower))) ≠ [] := by
  have hwf1 : wfDoc (if hasSec d shellClassInfo then d
      else d ++ [(shellClassInfo, [])]) := by
    by_cases h : hasSec d shellClassInfo
    · simpa [h] using hwf
    · have hb : hasSec d shellClassInfo = false := by simpa using h
      simpa [hb] using wfDoc_append_empty_sec hwf hb
  have hfind1 : ∃ ps0, findSec (if hasSec d shellClassInfo then d
      else d ++ [(shellClassInfo, [])]) shellClassInfo = some ps0 := by
    by_cases h : hasSec d shellClassInfo
    · obtain ⟨ps0, hps0⟩ := findSec_isSome_of_hasSec (by simpa using h)
      exact ⟨ps0, by simpa [h] using hps0⟩
    · have hb : hasSec d shellClassInfo = false := by simpa using h
      exact ⟨[], by simpa [hb] using findSec_append_one hb⟩
  obtain ⟨ps0, hps0⟩ := hfind1
  refine ⟨ps0.filter (fun p => ¬ lowerStr p.1 = infoTipLower),
    ?_, ?_, ?_, ?_⟩
  · rw [findSec_updateSec, hps0]
    rfl
  · refine wfDoc_updateSec hwf1 (fun ps hps => wfSec_filter hps)
  · intro p hp
    exact of_decide_eq_true (List.mem_filter.mp hp).2
  · intro hnil
    have := congrArg List.length hnil
    rw [updateSec_length] at this
    have h1 : (if hasSec d shellClassInfo then d
        else d ++ [(shellClassInfo, [])]) ≠ [] := by
      intro hx
      rw [hx] at hps0
      simp [findSec] at hps0
    simp at this
    exact h1 this

/-- `applyRemark` with a nonempty well-formed remark: succeeds, leaves a
well-formed nonempty document whose `.ShellClassInfo` section is the cleaned
options followed by exactly one `InfoTip` entry, and is idempotent. -/
theorem applyRemark_set {d : Doc} {r : Str} (hwf : wfDoc d) (hr : wfVal r)
    (hrne : r ≠ []) :
    ∃ d3 ps', applyRemark d r = .ok d3 ∧ wfDoc d3 ∧ d3 ≠ [] ∧
      findSec d3 shellClassInfo = some (ps' ++ [(infoTipKey, r)]) ∧
      (∀ p ∈ ps', ¬ lowerStr p.1 = infoTipLower) ∧
      applyRemark d3 r = .ok d3 := by
  obtain ⟨ps1, hfind2, hwf2, hfree, hne2⟩ := applyRemark_cleanup hwf
  have hbad : badPercent r = false := badPercent_no_percent hr.2.2.2
  have hset : setKey ps1 infoTipKey r = ps1 ++ [(infoTipKey, r)] :=
    setKey_fresh (infoTip_fresh_of_lower_free hfree)
  have heq : applyRemark d r = .ok (updateSec
      (updateSec (if hasSec d shellClassInfo then d
          else d ++ [(shellClassInfo, [])]) shellClassInfo
        (fun ps => ps.filter (fun p => ¬ lowerStr p.1 = infoTipLower)))
      shellClassInfo (fun ps => setKey ps infoTipKey r)) := by
    rw [applyRemark]
    simp only [hrne, if_false, reduceIte, hbad, Bool.false_eq_true]
  refine ⟨_, ps1, heq, ?_, ?_, ?_, hfree, ?_⟩
  · refine wfDoc_updateSec hwf2 (fun ps hps => wfSec_setKey hps ?_ hr)
    refine ⟨by decide, by decide, by decide, by decide, by decide, by decide,
      by decide, by decide, by decide⟩
  · intro hnil
    have := congrArg List.length hnil
    rw [updateSec_length] at this
    exact hne2 (List.length_eq_zero.mp (by simpa using this))
  · rw [findSec_updateSec, hfind2]
    simp [hset]
  · -- idempotence: running the mutation again reproduces the same document
    have hfind3 : findSec (updateSec
        (updateSec (if hasSec d shellClassInfo then d
            else d ++ [(shellClassInfo, [])]) shellClassInfo
          (fun ps => ps.filter (fun p => ¬ lowerStr p.1 = infoTipLower)))
        shellClassInfo (fun ps => setKey ps infoTipKey r)) shellClassInfo =
        some (ps1 ++ [(infoTipKey, r)]) := by
      rw [findSec_updateSec, hfind2]
      simp [hset]
    have hhas3 : hasSec (updateSec
        (updateSec (if hasSec d shellClassInfo then d
            else d ++ [(shellClassInfo, [])]) shellClassInfo
          (fun ps => ps.filter (fun p => ¬ lowerStr p.1 = infoTipLower)))
        shellClassInfo (fun ps => setKey ps infoTipKey r)) shellClassInfo =
        true := hasSec_of_findSec hfind3
    rw [applyRemark]
    simp only [hrne, if_false, reduceIte, hbad, Bool.false_eq_true, hhas3,
      if_true]
    rw [updateSec_updateSec]
    congr 1
    have hcg := updateSec_congr (d := updateSec
        (updateSec (if hasSec d shellClassInfo then d
            else d ++ [(shellClassInfo, [])]) shellClassInfo
          (fun ps => ps.filter (fun p => ¬ lowerStr p.1 = infoTipLower)))
        shellClassInfo (fun ps => setKey ps infoTipKey r))
      (n := shellClassInfo)
      (f := fun ps => setKey
        (ps.filter (fun p => ¬ lowerStr p.1 = infoTipLower)) infoTipKey r)
      (g := fun ps => ps) ?hcgh
    · rw [hcg, updateSec_id]
    case hcgh =>
      intro ps hps
      rw [hfind3] at hps
      have hps' : ps = ps1 ++ [(infoTipKey, r)] := by
        simpa using hps.symm
      subst hps'
      dsimp only
      rw [List.filter_append]
      rw [List.filter_eq_self.mpr
        (fun p hp => decide_eq_true (hfree p hp))]
      rw [show List.filter (fun p => decide (¬ lowerStr p.1 = infoTipLower))
            [(infoTipKey, r)] = [] by simp [lowerStr_infoTipKey]]
      rw [List.append_nil, hset]

/-- `applyRemark` with the empty remark: succeeds on a well-formed document,
leaves a well-formed document whose `.ShellClassInfo` section (when still
present) has no `InfoTip` case variant, and is idempotent. -/
theorem applyRemark_clear {d : Doc} (hwf : wfDoc d) :
    ∃ d4, applyRemark d [] = .ok d4 ∧ wfDoc d4 ∧
      (∀ ps, findSec d4 shellClassInfo = some ps →
        ∀ p ∈ ps, ¬ lowerStr p.1 = infoTipLower) ∧
      applyRemark d4 [] = .ok d4 := by
  obtain ⟨ps1, hfind2, hwf2, hfree, hne2⟩ := applyRemark_cleanup hwf
  set D2 := updateSec (if hasSec d shellClassInfo then d
      else d ++ [(shellClassInfo, [])]) shellClassInfo
    (fun ps => ps.filter (fun p => ¬ lowerStr p.1 = infoTipLower)) with hD2
  have hexact : ∀ (dd : Doc) (psx : List (Str × Str)),
      findSec dd shellClassInfo = some psx →
      (∀ p ∈ psx, ¬ p.1 = infoTipKey) →
      updateSec dd shellClassInfo
        (fun ps => ps.filter (fun p => ¬ p.1 = infoTipKey)) = dd := by
    intro dd psx hps hnot
    have := updateSec_congr (d := dd) (n := shellClassInfo)
      (f := fun ps => ps.filter (fun p => ¬ p.1 = infoTipKey))
      (g := fun ps => ps)
      (by
        intro ps hpsd
        rw [hps] at hpsd
        have : ps = psx := by simpa using hpsd.symm
        subst this
        exact List.filter_eq_self.mpr (fun p hp => decide_eq_true (hnot p hp)))
    rw [this, updateSec_id]
  have hfreeI : ∀ p ∈ ps1, ¬ p.1 = infoTipKey := by
    intro p hp hx
    exact hfree p hp (by rw [hx, lowerStr_infoTipKey])
  have hd3 : updateSec D2 shellClassInfo
      (fun ps => ps.filter (fun p => ¬ p.1 = infoTipKey)) = D2 :=
    hexact D2 ps1 hfind2 hfreeI
  have hvals : ∀ p ∈ ps1, '%' ∉ p.2 := by
    intro p hp
    have hsec := hwf2.2 (shellClassInfo, ps1) (mem_of_findSec hfind2)
    exact ((hsec.2.2 p hp).2).2.2.2
  have hitems : itemsInterp ps1 = .ok ps1 := itemsInterp_ok hvals
  have happly : applyRemark d [] =
      .ok (if ps1 = [] then removeSec D2 shellClassInfo else D2) := by
    rw [applyRemark]
    simp only [reduceIte, ← hD2, hd3, hfind2, hitems]
  by_cases hps1 : ps1 = []
  · subst hps1
    simp only [if_true, reduceIte] at happly
    refine ⟨removeSec D2 shellClassInfo, happly,
      wfDoc_sublist (removeSec_sublist D2 shellClassInfo) hwf2, ?_, ?_⟩
    · intro ps hps
      rw [findSec_removeSec hwf2.1] at hps
      exact absurd hps (by simp)
    · have hnosec : hasSec (removeSec D2 shellClassInfo) shellClassInfo =
          false :=
        hasSec_false_of_findSec_none (findSec_removeSec hwf2.1)
      have hfind1' : findSec (removeSec D2 shellClassInfo ++
          [(shellClassInfo, [])]) shellClassInfo = some [] :=
        findSec_append_one hnosec
      have hfiltid : updateSec (removeSec D2 shellClassInfo ++
            [(shellClassInfo, [])]) shellClassInfo
          (fun ps => ps.filter (fun p => ¬ lowerStr p.1 = infoTipLower)) =
          removeSec D2 shellClassInfo ++ [(shellClassInfo, [])] := by
        have := updateSec_congr
          (d := removeSec D2 shellClassInfo ++ [(shellClassInfo, [])])
          (n := shellClassInfo)
          (f := fun ps => ps.filter (fun p => ¬ lowerStr p.1 = infoTipLower))
          (g := fun ps => ps)
          (by
            intro ps hpsd
            rw [hfind1'] at hpsd
            have : ps = [] := by simpa using hpsd.symm
            subst this
            simp)
        rw [this, updateSec_id]
      rw [applyRemark]
      simp only [reduceIte, hnosec, Bool.false_eq_true, if_false, hfiltid]
      rw [hexact _ [] hfind1' (by simp), hfind1']
      simp only [itemsInterp, itemsInterp.itemsGo, if_true, reduceIte]
      rw [removeSec_append_fresh hnosec]
  · simp only [hps1, if_false, reduceIte] at happly
    refine ⟨D2, happly, hwf2, ?_, ?_⟩
    · intro ps hps
      rw [hfind2] at hps
      have : ps = ps1 := by simpa using hps.symm
      subst this
      exact hfree
    · have hhas : hasSec D2 shellClassInfo = true := hasSec_of_findSec hfind2
      have hfiltid : updateSec D2 shellClassInfo
          (fun ps => ps.filter (fun p => ¬ lowerStr p.1 = infoTipLower)) =
          D2 := by
        have := updateSec_congr (d := D2) (n := shellClassInfo)
          (f := fun ps => ps.filter (fun p => ¬ lowerStr p.1 = infoTipLower))
          (g := fun ps => ps)
          (by
            intro ps hpsd
            rw [hfind2] at hpsd
            have : ps = ps1 := by simpa using hpsd.symm
            subst this
            exact List.filter_eq_self.mpr
              (fun p hp => decide_eq_true (hfree p hp)))
        rw [this, updateSec_id]
      rw [applyRemark]
      simp only [reduceIte, hhas, if_true, hfiltid, hd3, hfind2, hitems,
        hps1, if_false]

instance (n : Str) : Decidable (wfName n) := by
  unfold wfName
  infer_instance

instance (k : Str) : Decidable (wfKey k) := by
  unfold wfKey
  infer_instance

instance (v : Str) : Decidable (wfVal v) := by
  unfold wfVal
  infer_instance

instance (s : Str × List (Str × Str)) : Decidable (wfSec s) := by
  unfold wfSec
  infer_instance

instance (d : Doc) : Decidable (wfDoc d) := by
  unfold wfDoc
  infer_instance

theorem read_doc_no_sec {d : Doc} (h : findSec d shellClassInfo = none) :
    read_info_tip_doc d = .ok [] := by
  rw [read_info_tip_doc, h]

theorem read_doc_lower_free {d : Doc} {ps : List (Str × Str)}
    (h : findSec d shellClassInfo = some ps)
    (hfree : ∀ p ∈ ps, ¬ lowerStr p.1 = infoTipLower) :
    read_info_tip_doc d = .ok [] := by
  rw [read_info_tip_doc, h]
  dsimp only
  rw [List.find?_eq_none.mpr (fun x hx => by simpa using hfree x hx)]

theorem read_doc_infotip {d : Doc} {ps' : List (Str × Str)} {r : Str}
    (h : findSec d shellClassInfo = some (ps' ++ [(infoTipKey, r)]))
    (hfree : ∀ p ∈ ps', ¬ lowerStr p.1 = infoTipLower)
    (hr : '%' ∉ r) :
    read_info_tip_doc d = .ok r := by
  rw [read_info_tip_doc, h]
  dsimp only
  rw [find_infotip_append hfree]
  dsimp only
  have hlook : lookupExact (ps' ++ [(infoTipKey, r)]) infoTipKey = some r :=
    lookupExact_append_fresh (infoTip_fresh_of_lower_free hfree)
  rw [hlook]
  dsimp only [Option.getD_some]
  exact interpolateValue_no_percent hr

theorem univNl_no_cr : ∀ {t : Str}, '\r' ∉ t → univNl t = t
  | [], _ => rfl
  | [c], h => by
    have hc : ¬ c = '\r' := fun hx => h (by simp [hx])
    simp [univNl, hc]
  | c :: c2 :: t, h => by
    have hc : ¬ c = '\r' := fun hx => h (by simp [hx])
    have h2 : '\r' ∉ c2 :: t := fun hx => h (List.mem_cons_of_mem _ hx)
    rw [univNl, if_neg hc, univNl_no_cr h2]

theorem unlines_no_cr {ls : List Str} (h : ∀ l ∈ ls, '\r' ∉ l) :
    '\r' ∉ unlines ls := by
  induction ls with
  | nil => simp [unlines]
  | cons l t ih =>
    rw [show unlines (l :: t) = l ++ '\n' :: unlines t from rfl]
    intro hmem
    rcases List.mem_append.mp hmem with hm | hm
    · exact h l (by simp) hm
    · rcases List.mem_cons.mp hm with hm | hm
      · exact absurd hm (by decide)
      · exact ih (fun x hx => h x (by simp [hx])) hm

theorem docLines_no_cr {d : Doc} (hwf : ∀ s ∈ d, wfSec s) :
    ∀ l ∈ docLines d, '\r' ∉ l := by
  induction d with
  | nil => intro l hl; simp [docLines] at hl
  | cons s d' ih =>
    intro l hl
    rw [show docLines (s :: d') = sectionLines s.1 s.2 ++ docLines d' by
      simp [docLines]] at hl
    rcases List.mem_append.mp hl with hl | hl
    · obtain ⟨hn, hnd, hw⟩ := hwf s (by simp)
      rw [sectionLines] at hl
      rcases List.mem_cons.mp hl with rfl | hl
      · intro hmem
        rcases List.mem_cons.mp hmem with h | h
        · exact absurd h.symm (by decide)
        · rcases List.mem_append.mp h with h | h
          · exact hn.2.2.1 h
          · simp at h
      · rcases List.mem_append.mp hl with hl | hl
        · obtain ⟨p, hp, rfl⟩ := List.mem_map.mp hl
          obtain ⟨hk, hv⟩ := hw p hp
          rw [pairLine, replaceNl_no_newline hv.2.1]
          intro hmem
          rcases List.mem_append.mp hmem with h | h
          · exact hk.2.2.2.1 h
          · rcases List.mem_cons.mp h with h | h
            · exact absurd h (by decide)
            · rcases List.mem_cons.mp h with h | h
              · exact absurd h (by decide)
              · rcases List.mem_cons.mp h with h | h
                · exact absurd h (by decide)
                · exact hv.2.2.1 h
        · simp at hl
          subst hl
          simp
    · exact ih (fun x hx => hwf x (by simp [hx])) l hl

theorem write_text_no_cr {d : Doc} (hwf : ∀ s ∈ d, wfSec s) :
    '\r' ∉ write_config_text d :=
  unlines_no_cr (docLines_no_cr hwf)

theorem safe_read_written {t : Str} {d : Doc} (hcr : '\r' ∉ t)
    (h : parseText t = .ok d) :
    safe_read_config (some (writtenRaw t)) = d := by
  rw [safe_read_config, writtenRaw, univNl_no_cr hcr]
  simp [tryDecode, h]

/-- Writing a well-formed remark to an existing folder whose sidecar decodes
to a well-formed document succeeds, and reading it back returns exactly the
remark that was written (the empty remark reads back as empty). -/
theorem write_then_read (fs : FS) (r : Str)
    (hex : fs.folderExists = true)
    (hwf : wfDoc (safe_read_config (fs.ini.map IniFile.raw)))
    (hr : wfVal r) :
    (write_info_tip fs r).1 = .ok () ∧
      read_info_tip (write_info_tip fs r).2 = .ok r := by
  rw [write_info_tip]
  simp only [hex, Bool.true_eq_false, if_false, reduceIte]
  by_cases hrne : r = []
  · subst hrne
    obtain ⟨d4, happ, hwf4, hfree4, _⟩ := applyRemark_clear hwf
    rw [happ]
    by_cases h4 : d4 = []
    · simp only [h4, if_true, reduceIte]
      refine ⟨by simp, ?_⟩
      rw [read_info_tip]
      dsimp only
      simp [read_doc_no_sec, findSec, safe_read_config]
    · simp only [h4, if_false, reduceIte]
      refine ⟨by simp, ?_⟩
      rw [read_info_tip]
      dsimp only [Option.map_some']
      rw [safe_read_written (write_text_no_cr hwf4.2)
        (parse_write_config hwf4)]
      cases hfs : findSec d4 shellClassInfo with
      | none => exact read_doc_no_sec hfs
      | some ps => exact read_doc_lower_free hfs (hfree4 ps hfs)
  · obtain ⟨d3, ps', happ, hwf3, hne3, hfind3, hfree3, _⟩ :=
      applyRemark_set hwf hr hrne
    rw [happ]
    simp only [hne3, if_false, reduceIte]
    refine ⟨by simp, ?_⟩
    rw [read_info_tip]
    dsimp only [Option.map_some']
    rw [safe_read_written (write_text_no_cr hwf3.2)
      (parse_write_config hwf3)]
    exact read_doc_infotip hfind3 hfree3 hr.2.2.2

theorem write_fst_ok {fs : FS} {r : Str} {d3 : Doc}
    (hex : fs.folderExists = true)
    (happ : applyRemark (safe_read_config (fs.ini.map IniFile.raw)) r =
      .ok d3) :
    (write_info_tip fs r).1 = .ok () := by
  rw [write_info_tip]
  simp only [hex, Bool.true_eq_false, if_false, reduceIte]
  rw [happ]
  by_cases h : d3 = [] <;> simp [h]

theorem write_snd_of_set {fs : FS} {r : Str} {d3 : Doc}
    (hex : fs.folderExists = true)
    (happ : applyRemark (safe_read_config (fs.ini.map IniFile.raw)) r =
      .ok d3)
    (hne : d3 ≠ []) :
    (write_info_tip fs r).2 =
      ⟨true, fs.folderAttrs ||| attrSystem,
        some ⟨writtenRaw (write_config_text d3),
          (match fs.ini with
            | some f => f.attrs
            | none => 0) ||| attrHidden ||| attrSystem⟩⟩ := by
  rw [write_info_tip]
  simp only [hex, Bool.true_eq_false, if_false, reduceIte]
  rw [happ]
  simp [hne]

theorem write_snd_of_nil {fs : FS} {r : Str}
    (hex : fs.folderExists = true)
    (happ : applyRemark (safe_read_config (fs.ini.map IniFile.raw)) r =
      .ok []) :
    (write_info_tip fs r).2 =
      ⟨true, fs.folderAttrs ||| attrSystem, none⟩ := by
  rw [write_info_tip]
  simp only [hex, Bool.true_eq_false, if_false, reduceIte]
  rw [happ]
  simp

/-- C7: on a folder that does not exist, `write_info_tip` fails with
`NotFound` for every remark, and the filesystem state — folder attributes
and sidecar alike — is exactly what it was before the call. -/
theorem write_notfound (fs : FS) (r : Str)
    (h : fs.folderExists = false) :
    write_info_tip fs r = (.error .notFound, fs) := by
  rw [write_info_tip]
  simp [h]

/-- C7 witness: a missing folder and the remark `"a"`. -/
theorem write_notfound_witness :
    (⟨false, 0, none⟩ : FS).folderExists = false ∧
    write_info_tip ⟨false, 0, none⟩ ('a' :: []) =
      (.error .notFound, ⟨false, 0, none⟩) :=
  ⟨rfl, write_notfound ⟨false, 0, none⟩ ('a' :: []) rfl⟩

/-- C2: on an existing folder whose sidecar decodes to just the
`.ShellClassInfo` section holding a single key that case-insensitively
equals `infotip`, writing the empty remark succeeds, deletes the sidecar
from disk, and writes no document. -/
theorem write_empty_deletes (fs : FS) (k v : Str)
    (hex : fs.folderExists = true)
    (hini : fs.ini.isSome = true)
    (hdoc : safe_read_config (fs.ini.map IniFile.raw) =
      [(shellClassInfo, [(k, v)])])
    (hk : lowerStr k = infoTipLower) :
    (write_info_tip fs []).1 = .ok () ∧
      ((write_info_tip fs []).2).ini = none := by
  have happ : applyRemark (safe_read_config (fs.ini.map IniFile.raw)) [] =
      .ok [] := by
    rw [hdoc, applyRemark]
    simp only [if_pos rfl, reduceIte]
    rw [show hasSec [(shellClassInfo, [(k, v)])] shellClassInfo = true by
      simp [hasSec]]
    simp only [if_true, reduceIte, updateSec, if_pos rfl]
    rw [show List.filter (fun p => decide ¬ lowerStr p.1 = infoTipLower)
        [(k, v)] = [] by simp [List.filter, hk]]
    simp [findSec, List.find?, itemsInterp, itemsInterp.itemsGo, removeSec]
  refine ⟨write_fst_ok hex happ, ?_⟩
  rw [write_snd_of_nil hex happ]

/-- A concrete sidecar state holding only an upper-cased InfoTip key. -/
def c2fs : FS :=
  ⟨true, 0, some ⟨writtenRaw "[.ShellClassInfo]\nINFOTIP = z\n".toList, 6⟩⟩

/-- C2 witness: a folder whose sidecar holds only `INFOTIP = z`. -/
theorem write_empty_deletes_witness :
    c2fs.folderExists = true ∧
    c2fs.ini.isSome = true ∧
    safe_read_config (c2fs.ini.map IniFile.raw) =
      [(shellClassInfo, [("INFOTIP".toList, 'z' :: [])])] ∧
    lowerStr "INFOTIP".toList = infoTipLower ∧
    ((write_info_tip c2fs []).1 = .ok () ∧
      ((write_info_tip c2fs []).2).ini = none) :=
  ⟨rfl, rfl, by decide, by decide,
    write_empty_deletes c2fs "INFOTIP".toList ('z' :: []) rfl rfl
      (by decide) (by decide)⟩

theorem or_absorb (a b c : Nat) :
    ((a ||| b) ||| c) ||| b ||| c = (a ||| b) ||| c := by
  apply Nat.eq_of_testBit_eq
  intro i
  simp only [Nat.testBit_or]
  cases a.testBit i <;> cases b.testBit i <;> cases c.testBit i <;> rfl

theorem applyRemark_err_badPercent {d : Doc} {r : Str}
    (hrne : r ≠ []) (hbp : badPercent r = true) :
    applyRemark d r = .error .valueError := by
  rw [applyRemark]
  simp only [hrne, if_false, reduceIte, hbp, if_true]

theorem write_of_err {fs : FS} {r : Str} {e : WErr}
    (hex : fs.folderExists = true)
    (happ : applyRemark (safe_read_config (fs.ini.map IniFile.raw)) r =
      .error e) :
    write_info_tip fs r =
      (.error e,
        { fs with folderAttrs := fs.folderAttrs ||| attrSystem }) := by
  rw [write_info_tip]
  simp only [hex, Bool.true_eq_false, if_false, reduceIte]
  rw [happ]

/-- The concrete sidecar state for the C3 failing input: an existing folder
whose sidecar decodes (via utf-16) to `[.ShellClassInfo]` with
`InfoTip = 100%`. -/
def c3fs : FS :=
  ⟨true, 0, some ⟨writtenRaw "[.ShellClassInfo]\nInfoTip = 100%\n".toList, 6⟩⟩

/-- C3 (refuted as stated — code bug): `read_info_tip` is NOT raise-free.
On a sidecar whose InfoTip value contains a stray `%` (here `100%`), the
file decodes and parses fine, but `parser.get` applies `BasicInterpolation`
and raises `InterpolationSyntaxError`; the error escapes `read_info_tip`.
The model evaluates the call to that error instead of any `.ok` string. -/
theorem read_info_tip_raises_on_percent :
    read_info_tip c3fs = .error .badRef := by
  have hdoc : safe_read_config (c3fs.ini.map IniFile.raw) =
      [(shellClassInfo, [(infoTipKey, "100%".toList)])] := by decide
  rw [read_info_tip, hdoc, read_info_tip_doc]
  rw [show findSec [(shellClassInfo, [(infoTipKey, "100%".toList)])]
      shellClassInfo = some [(infoTipKey, "100%".toList)] by decide]
  dsimp only
  rw [show List.find? (fun p => decide (lowerStr p.1 = infoTipLower))
      [(infoTipKey, "100%".toList)] =
    some (infoTipKey, "100%".toList) by decide]
  dsimp only
  rw [show lookupExact [(infoTipKey, "100%".toList)] infoTipKey =
    some "100%".toList by decide]
  dsimp only [Option.getD_some]
  simp [interpolateValue, interpGo, maxInterpDepth]

theorem save_changes_length (wr : Str → Str → Except WErr Unit)
    (rows : List RowState) :
    (save_changes wr rows).1.length = rows.length := by
  induction rows with
  | nil => rfl
  | cons r rest ih =>
    by_cases h : r.current_remark = r.original_remark
    · simp [save_changes, h, ih]
    · cases hw : wr r.path r.current_remark <;> simp [save_changes, h, hw, ih]

/-- C4: batch save with partial failure.  Every row of the table survives
(the result has one row per input row); each row's outcome depends only on
its own write attempt — unchanged when clean, `original_remark` updated to
`current_remark` exactly when its own write succeeds, untouched when it
fails; and every dirty row is reported, by name in the success list when
its write succeeds, as (name, error) in the failure list when it raises. -/
theorem save_changes_partial (wr : Str → Str → Except WErr Unit)
    (rows : List RowState) (i : Nat) (row : RowState)
    (hrow : rows[i]? = some row) :
    (save_changes wr rows).1.length = rows.length ∧
    (save_changes wr rows).1[i]? = some (
      if row.current_remark = row.original_remark then row
      else match wr row.path row.current_remark with
        | .ok _ => { row with original_remark := row.current_remark }
        | .error _ => row) ∧
    (¬ row.current_remark = row.original_remark →
      (∀ u, wr row.path row.current_remark = .ok u →
        row.name ∈ (save_changes wr rows).2.1) ∧
      (∀ e, wr row.path row.current_remark = .error e →
        (row.name, e) ∈ (save_changes wr rows).2.2)) := by
  refine ⟨save_changes_length wr rows, ?_⟩
  induction rows generalizing i with
  | nil => simp at hrow
  | cons r rest ih =>
    cases i with
    | zero =>
      simp only [List.getElem?_cons_zero, Option.some.injEq] at hrow
      subst hrow
      by_cases h : r.current_remark = r.original_remark
      · refine ⟨?_, fun hd => absurd h hd⟩
        simp [save_changes, h]
      · cases hw : wr r.path r.current_remark with
        | ok u =>
          refine ⟨?_, fun _ => ⟨fun _ _ => ?_, fun e he => ?_⟩⟩
          · simp [save_changes, h, hw]
          · simp [save_changes, h, hw]
          · exact absurd he (by simp)
        | error e =>
          refine ⟨?_, fun _ => ⟨fun u hu => ?_, fun e' he' => ?_⟩⟩
          · simp [save_changes, h, hw]
          · exact absurd hu (by simp)
          · injection he' with he''
            subst he''
            simp [save_changes, h, hw]
    | succ j =>
      simp only [List.getElem?_cons_succ] at hrow
      obtain ⟨hget, hrep⟩ := ih j hrow
      constructor
      · by_cases h : r.current_remark = r.original_remark
        · simpa [save_changes, h] using hget
        · cases hw : wr r.path r.current_remark <;>
            simpa [save_changes, h, hw] using hget
      · intro hd
        obtain ⟨hok, herr⟩ := hrep hd
        refine ⟨fun u hu => ?_, fun e he => ?_⟩
        · have hmem := hok u hu
          by_cases h : r.current_remark = r.original_remark
          · simpa [save_changes, h] using hmem
          · cases hw : wr r.path r.current_remark <;>
              simp [save_changes, h, hw] <;>
              first
              | exact hmem
              | exact Or.inr hmem
        · have hmem := herr e he
          by_cases h : r.current_remark = r.original_remark
          · simpa [save_changes, h] using hmem
          · cases hw : wr r.path r.current_remark <;>
              simp [save_changes, h, hw] <;>
              first
              | exact hmem
              | exact Or.inr hmem

def c4r1 : RowState := ⟨"one".toList, "p1".toList, [], "a".toList⟩

def c4r2 : RowState := ⟨"two".toList, "p2".toList, [], "b".toList⟩

def c4r3 : RowState := ⟨"three".toList, "p3".toList, [], "c".toList⟩

def c4rows : List RowState := [c4r1, c4r2, c4r3]

/-- A write oracle whose folder for row 2 was deleted externally: writing
to path `p2` raises `FileNotFoundError`, the other writes succeed. -/
def c4wr : Str → Str → Except WErr Unit :=
  fun p _ => if p = "p2".toList then .error .notFound else .ok ()

/-- C4 witness: three dirty rows, the middle one failing with NotFound. -/
theorem save_changes_partial_witness :
    c4rows[1]? = some c4r2 ∧
    ((save_changes c4wr c4rows).1.length = c4rows.length ∧
      (save_changes c4wr c4rows).1[1]? = some (
        if c4r2.current_remark = c4r2.original_remark then c4r2
        else match c4wr c4r2.path c4r2.current_remark with
          | .ok _ => { c4r2 with original_remark := c4r2.current_remark }
          | .error _ => c4r2) ∧
      (¬ c4r2.current_remark = c4r2.original_remark →
        (∀ u, c4wr c4r2.path c4r2.current_remark = .ok u →
          c4r2.name ∈ (save_changes c4wr c4rows).2.1) ∧
        (∀ e, c4wr c4r2.path c4r2.current_remark = .error e →
          (c4r2.name, e) ∈ (save_changes c4wr c4rows).2.2))) :=
  ⟨rfl, save_changes_partial c4wr c4rows 1 c4r2 rfl⟩

theorem mem_insertOrd {α : Type} {lt : α → α → Bool} {x y : α} {l : List α}
    (h : x ∈ insertOrd lt y l) : x = y ∨ x ∈ l := by
  induction l with
  | nil =>
    simp only [insertOrd, List.mem_singleton] at h
    exact Or.inl h
  | cons z zs ih =>
    rw [insertOrd] at h
    by_cases hlt : lt y z = true
    · rw [if_pos hlt] at h
      simpa using h
    · rw [if_neg hlt] at h
      rcases List.mem_cons.mp h with h' | h'
      · exact Or.inr (by simp [h'])
      · rcases ih h' with h'' | h''
        · exact Or.inl h''
        · exact Or.inr (List.mem_cons_of_mem _ h'')

theorem mem_sortedBy {α : Type} {lt : α → α → Bool} {x : α} {l : List α}
    (h : x ∈ sortedBy lt l) : x ∈ l := by
  induction l with
  | nil => simpa [sortedBy] using h
  | cons y ys ih =>
    rw [sortedBy] at h
    rcases mem_insertOrd h with h' | h'
    · simp [h']
    · exact List.mem_cons_of_mem _ (ih h')

/-- C6: no returned child has a leaf name whose lowercasing collides with
any configured skip name, whatever casing either side uses — on every code
path, including the unsorted partial list returned when the scandir
iteration raises `PermissionError` midway. -/
theorem list_subfolders_skip_excluded (cfg : List Str) (parent : Str)
    (pe : Bool) (sf : Option Nat) (entries : List DirEntry) (p : MPath)
    (s : Str)
    (hp : p ∈ list_subfolders cfg parent pe sf entries)
    (hs : s ∈ cfg) :
    lowerStr p.name ≠ lowerStr s := by
  rw [list_subfolders.eq_def] at hp
  by_cases hpe : pe = false
  · rw [if_pos hpe] at hp
    simp at hp
  · rw [if_neg hpe] at hp
    have key : ∀ (l : List DirEntry),
        p ∈ (l.filter (fun e =>
            ¬ e.permDenied ∧ e.isDir ∧ lowerStr e.name ∉ mkSkipNames cfg)).map
          (fun e => (⟨parent, e.name⟩ : MPath)) →
        lowerStr p.name ≠ lowerStr s := by
      intro l hmem
      rcases List.mem_map.mp hmem with ⟨e, he, hpe2⟩
      have hef := List.mem_filter.mp he
      obtain ⟨-, -, hnotin⟩ := of_decide_eq_true hef.2
      intro heq
      apply hnotin
      rw [← hpe2] at heq
      rw [show (⟨parent, e.name⟩ : MPath).name = e.name from rfl] at heq
      rw [mkSkipNames, heq]
      exact List.mem_map_of_mem lowerStr hs
    cases sf with
    | some k => exact key _ hp
    | none => exact key _ (mem_sortedBy hp)

/-- C6 witness: skip set configured as `Skip`, a child named `SKIP` on
disk is excluded while `child` survives. -/
theorem list_subfolders_skip_excluded_witness :
    (⟨"P".toList, "child".toList⟩ : MPath) ∈
      list_subfolders ["Skip".toList] "P".toList true none
        [⟨"SKIP".toList, true, false⟩, ⟨"child".toList, true, false⟩] ∧
    "Skip".toList ∈ ["Skip".toList] ∧
    lowerStr (⟨"P".toList, "child".toList⟩ : MPath).name ≠
      lowerStr "Skip".toList :=
  ⟨by decide, by decide,
    list_subfolders_skip_excluded ["Skip".toList] "P".toList true none
      [⟨"SKIP".toList, true, false⟩, ⟨"child".toList, true, false⟩]
      ⟨"P".toList, "child".toList⟩ "Skip".toList (by decide) (by decide)⟩

theorem lexLt_asymm : ∀ (a b : Str), lexLt a b = true → lexLt b a = false
  | [], [] => by simp [lexLt]
  | [], _ :: _ => by simp [lexLt]
  | _ :: _, [] => by simp [lexLt]
  | a :: as, b :: bs => by
    rw [lexLt, lexLt]
    by_cases hab : a < b
    · have hba : ¬ b < a := lt_asymm hab
      intro _
      simp [hba, hab]
    · by_cases hba : b < a
      · intro h
        rw [if_neg hab, if_pos hba] at h
        exact absurd h (by simp)
      · intro h
        rw [if_neg hab, if_neg hba] at h
        rw [if_neg hba, if_neg hab]
        exact lexLt_asymm as bs h

theorem pathLt_asymm (p q : MPath) (h : pathLt p q = true) :
    pathLt q p = false :=
  lexLt_asymm _ _ h

theorem isSortedBy_insertOrd {α : Type} {lt : α → α → Bool}
    (hasym : ∀ a b, lt a b = true → lt b a = false) (x : α) :
    ∀ (l : List α),
    isSortedBy (fun p q => !lt q p) l = true →
    isSortedBy (fun p q => !lt q p) (insertOrd lt x l) = true
  | [], _ => by simp [insertOrd, isSortedBy]
  | y :: ys, hl => by
    rw [insertOrd]
    by_cases hxy : lt x y = true
    · rw [if_pos hxy]
      have hyx : (!lt y x) = true := by rw [hasym x y hxy]; rfl
      rw [isSortedBy]
      simp only [hyx, Bool.true_and]
      exact hl
    · rw [if_neg hxy]
      have hxyle : (!lt x y) = true := by
        cases h2 : lt x y
        · rfl
        · exact absurd h2 hxy
      cases ys with
      | nil => simp [insertOrd, isSortedBy, hxyle]
      | cons z zs =>
        rw [isSortedBy] at hl
        obtain ⟨hyz, hl2⟩ := Bool.and_eq_true_iff.mp hl
        have ih := isSortedBy_insertOrd hasym x (z :: zs) hl2
        rw [insertOrd]
        by_cases hxz : lt x z = true
        · rw [if_pos hxz]
          have hzx : (!lt z x) = true := by rw [hasym x z hxz]; rfl
          rw [isSortedBy, isSortedBy]
          simp only [hxyle, hzx, Bool.true_and]
          exact hl2
        · rw [if_neg hxz]
          rw [insertOrd, if_neg hxz] at ih
          rw [isSortedBy]
          simp only [hyz, Bool.true_and]
          exact ih

theorem isSortedBy_sortedBy {α : Type} {lt : α → α → Bool}
    (hasym : ∀ a b, lt a b = true → lt b a = false) :
    ∀ (l : List α), isSortedBy (fun p q => !lt q p) (sortedBy lt l) = true
  | [] => by simp [sortedBy, isSortedBy]
  | x :: xs => by
    rw [sortedBy]
    exact isSortedBy_insertOrd hasym x _ (isSortedBy_sortedBy hasym xs)

/-- C8: totality, order, and the partial-scan caveat of `list_subfolders`.
A parent that does not exist yields `[]` without raising.  A scan that
completes yields a list sorted by the case-folded (lowercased) path string
— `sorted` on `WindowsPath` compares case-insensitively, so the raw
code-point order the claim states fails (first counterexample conjunct).
A scan whose iteration raises `PermissionError` midway returns exactly the
entries accumulated so far, filtered but NOT sorted (`except
PermissionError: return subfolders` runs before `sorted`), so the claimed
order also fails on that path (second counterexample conjunct). -/
theorem list_subfolders_total_sorted (cfg : List Str) (parent : Str)
    (pe : Bool) (sf : Option Nat) (entries : List DirEntry) :
    (pe = false → list_subfolders cfg parent pe sf entries = []) ∧
    (sf = none → isSortedBy (fun p q => !pathLt q p)
      (list_subfolders cfg parent pe sf entries) = true) ∧
    (∀ k, sf = some k → pe = true →
      list_subfolders cfg parent pe sf entries =
        ((entries.take k).filter (fun e =>
            ¬ e.permDenied ∧ e.isDir ∧
              lowerStr e.name ∉ mkSkipNames cfg)).map
          (fun e => ⟨parent, e.name⟩)) := by
  refine ⟨?_, ?_, ?_⟩
  · intro h
    rw [list_subfolders.eq_def, if_pos h]
  · intro h
    subst h
    rw [list_subfolders.eq_def]
    by_cases hpe : pe = false
    · rw [if_pos hpe]
      rfl
    · rw [if_neg hpe]
      exact isSortedBy_sortedBy (fun a b => pathLt_asymm a b) _
  · intro k hk hpe
    subst hk
    rw [list_subfolders.eq_def, if_neg (by simp [hpe])]

/-- C8 witness: a missing parent yields `[]`, a completed listing with
children `B` and `a` is sorted by lowercased path, and a scan failing after
one entry returns that filtered prefix. -/
theorem list_subfolders_total_sorted_witness :
    ((false = false →
        list_subfolders [] "P".toList false none
          [⟨"B".toList, true, false⟩, ⟨"a".toList, true, false⟩] = []) ∧
      ((none : Option Nat) = none → isSortedBy (fun p q => !pathLt q p)
        (list_subfolders [] "P".toList false none
          [⟨"B".toList, true, false⟩, ⟨"a".toList, true, false⟩]) = true) ∧
      (∀ k, (none : Option Nat) = some k → false = true →
        list_subfolders [] "P".toList false none
            [⟨"B".toList, true, false⟩, ⟨"a".toList, true, false⟩] =
          ((([(⟨"B".toList, true, false⟩ : DirEntry),
              ⟨"a".toList, true, false⟩]).take k).filter (fun e =>
              ¬ e.permDenied ∧ e.isDir ∧
                lowerStr e.name ∉ mkSkipNames [])).map
            (fun e => ⟨"P".toList, e.name⟩))) :=
  list_subfolders_total_sorted [] "P".toList false none
    [⟨"B".toList, true, false⟩, ⟨"a".toList, true, false⟩]

/-- C8 counterexample: with children named `B` and `a` under parent `P`,
a completed scan returns `[P\a, P\B]` — not lexicographically sorted by
path, since `P\B` precedes `P\a` in code-point order; and a scan whose
iteration fails after both entries returns `[P\b, P\a]` unsorted even
case-insensitively. -/
theorem list_subfolders_not_lex_sorted :
    isSortedBy (fun p q => !lexLt (pathStr q) (pathStr p))
      (list_subfolders [] "P".toList true none
        [⟨"B".toList, true, false⟩, ⟨"a".toList, true, false⟩]) = false ∧
    isSortedBy (fun p q => !pathLt q p)
      (list_subfolders [] "P".toList true (some 2)
        [⟨"b".toList, true, false⟩, ⟨"a".toList, true, false⟩]) = false := by
  constructor <;> decide

/-- C9: `send_payload` never raises — it returns a boolean for every
payload and network behaviour, `true` exactly when connecting and writing
to the rendezvous endpoint both succeed within the timeout, `false` for
every connection or send error. -/
theorem send_payload_total (net : Str → NetOutcome) (payload : Str) :
    send_payload net payload = netDelivered (net payload) := by
  cases h : net payload <;>
    simp [send_payload, send_payload_attempt, netDelivered, h]

theorem read_first_infotip_lookup {ps : List (Str × Str)} {k v : Str}
    (hnd : (ps.map Prod.fst).Nodup) (hm : (k, v) ∈ ps) :
    lookupExact ps k = some v := by
  induction ps with
  | nil => simp at hm
  | cons p t ih =>
    rcases List.mem_cons.mp hm with h | h
    · rw [lookupExact, List.find?_cons_of_pos _ (by rw [← h]; simp)]
      rw [← h]
      rfl
    · have hk : ¬ p.1 = k := by
        intro hx
        rw [List.map_cons] at hnd
        exact (List.nodup_cons.mp hnd).1
          (hx ▸ List.mem_map_of_mem Prod.fst h)
      rw [lookupExact, List.find?_cons_of_neg _ (by simpa using hk)]
      exact ih (List.nodup_cons.mp (by rwa [List.map_cons] at hnd)).2 h

/-- C10: with several case variants of `infotip` stored in
`.ShellClassInfo` (decoding preserves key case, so foreign writers can
leave more than one), `read_info_tip` returns the value of the FIRST such
key in stored order, and returns `""` when the section is absent.  The
first key's value is returned after interpolation, so it is returned
verbatim only when free of `%` — as stated (verbatim for every value) the
claim fails, see the counterexample where the first value `a%%b` is read
back as `a%b`. -/
theorem read_first_infotip (d : Doc) :
    (findSec d shellClassInfo = none → read_info_tip_doc d = .ok []) ∧
    (∀ ps k v, (ps.map Prod.fst).Nodup →
      findSec d shellClassInfo = some ps →
      ps.find? (fun p => lowerStr p.1 = infoTipLower) = some (k, v) →
      '%' ∉ v →
      read_info_tip_doc d = .ok v) := by
  constructor
  · intro h
    rw [read_info_tip_doc, h]
  · intro ps k v hnd hfind hfirst hv
    rw [read_info_tip_doc, hfind]
    dsimp only
    rw [hfirst]
    dsimp only
    rw [read_first_infotip_lookup hnd (List.mem_of_find?_eq_some hfirst)]
    dsimp only [Option.getD_some]
    exact interpolateValue_no_percent hv

/-- C10 witness: two case variants, `INFOTIP = first` stored before
`InfoTip = second`; the read returns `first`. -/
theorem read_first_infotip_witness :
    ((findSec [(shellClassInfo,
          [("INFOTIP".toList, "first".toList),
            (infoTipKey, "second".toList)])] shellClassInfo = none →
        read_info_tip_doc [(shellClassInfo,
          [("INFOTIP".toList, "first".toList),
            (infoTipKey, "second".toList)])] = .ok []) ∧
      (∀ ps k v, (ps.map Prod.fst).Nodup →
        findSec [(shellClassInfo,
          [("INFOTIP".toList, "first".toList),
            (infoTipKey, "second".toList)])] shellClassInfo = some ps →
        ps.find? (fun p => lowerStr p.1 = infoTipLower) = some (k, v) →
        '%' ∉ v →
        read_info_tip_doc [(shellClassInfo,
          [("INFOTIP".toList, "first".toList),
            (infoTipKey, "second".toList)])] = .ok v)) ∧
    read_info_tip_doc [(shellClassInfo,
      [("INFOTIP".toList, "first".toList),
        (infoTipKey, "second".toList)])] = .ok "first".toList :=
  ⟨read_first_infotip [(shellClassInfo,
      [("INFOTIP".toList, "first".toList), (infoTipKey, "second".toList)])],
    (read_first_infotip [(shellClassInfo,
        [("INFOTIP".toList, "first".toList),
          (infoTipKey, "second".toList)])]).2
      [("INFOTIP".toList, "first".toList), (infoTipKey, "second".toList)]
      "INFOTIP".toList "first".toList (by decide) (by decide) (by decide)
      (by decide)⟩

/-- C10 counterexample: when the first matching key's stored value is
`a%%b`, `read_info_tip` returns `a%b` — `parser.get` interpolates, so the
stored value is not returned verbatim. -/
theorem read_first_infotip_cex :
    read_info_tip_doc [(shellClassInfo,
        [(infoTipKey, "a%%b".toList), ("INFOTIP".toList, "z".toList)])] =
      .ok "a%b".toList ∧
    "a%b".toList ≠ "a%%b".toList := by
  constructor
  · rw [read_info_tip_doc]
    rw [show findSec [(shellClassInfo,
          [(infoTipKey, "a%%b".toList), ("INFOTIP".toList, "z".toList)])]
        shellClassInfo =
      some [(infoTipKey, "a%%b".toList), ("INFOTIP".toList, "z".toList)]
      by decide]
    dsimp only
    rw [show List.find? (fun p => decide (lowerStr p.1 = infoTipLower))
        [(infoTipKey, "a%%b".toList), ("INFOTIP".toList, "z".toList)] =
      some (infoTipKey, "a%%b".toList) by decide]
    dsimp only
    rw [show lookupExact
        [(infoTipKey, "a%%b".toList), ("INFOTIP".toList, "z".toList)]
        infoTipKey = some "a%%b".toList by decide]
    dsimp only [Option.getD_some]
    simp [interpolateValue, interpGo, maxInterpDepth]
  · decide

theorem stripR_idem (s : Str) : stripR (stripR s) = stripR s := by
  induction s with
  | nil => rfl
  | cons c t ih =>
    rw [stripR]
    cases h : stripR t with
    | nil =>
      by_cases hc : pyWs c = true
      · simp [hc, stripR]
      · simp only [Bool.not_eq_true] at hc
        simp [hc, stripR]
    | cons x xs =>
      rw [h] at ih
      rw [stripR, ih]

theorem stripL_idem (s : Str) : stripL (stripL s) = stripL s := by
  induction s with
  | nil => rfl
  | cons c t ih =>
    by_cases hc : pyWs c = true
    · rw [stripL_cons_ws hc]
      exact ih
    · simp only [Bool.not_eq_true] at hc
      rw [stripL_cons_not_ws hc, stripL_cons_not_ws hc]

theorem stripR_stripL_comm (s : Str) :
    stripR (stripL s) = stripL (stripR s) := by
  induction s with
  | nil => rfl
  | cons c t ih =>
    by_cases hc : pyWs c = true
    · rw [stripL_cons_ws hc, ih, stripR]
      cases h : stripR t with
      | nil => simp [hc, stripL]
      | cons x xs => rw [stripL_cons_ws hc]
    · simp only [Bool.not_eq_true] at hc
      rw [stripL_cons_not_ws hc, stripR]
      cases h : stripR t with
      | nil =>
        simp only [hc, Bool.false_eq_true, if_false, reduceIte]
        rw [stripL_cons_not_ws hc]
      | cons x xs => rw [stripL_cons_not_ws hc]

theorem pyStrip_idem (s : Str) : pyStrip (pyStrip s) = pyStrip s := by
  show stripR (stripL (stripR (stripL s))) = stripR (stripL s)
  rw [← stripR_stripL_comm (stripL s), stripL_idem, stripR_idem]

theorem pyStrip_eq_nil_of_stripR {v : Str} (h : stripR v = []) :
    pyStrip v = [] := by
  rw [pyStrip, stripR_stripL_comm, h]
  rfl

theorem pyStrip_space_stripR (v : Str) :
    pyStrip (' ' :: stripR v) = pyStrip v := by
  show stripR (stripL (' ' :: stripR v)) = pyStrip v
  rw [stripL_cons_ws (by decide), ← stripR_stripL_comm v, stripR_idem]
  rfl

theorem pyStrip_pairLine_gen {k v : Str}
    (hkne : k ≠ []) (hks : pyStrip k = k) (hvn : '\n' ∉ v) :
    pyStrip (pairLine k v) =
      if stripR v = [] then k ++ [' ', '=']
      else k ++ ([' ', '=', ' '] ++ stripR v) := by
  obtain ⟨c, k', rfl⟩ : ∃ c k', k = c :: k' := by
    cases k with
    | nil => exact absurd rfl hkne
    | cons c k' => exact ⟨c, k', rfl⟩
  have hws : pyWs c = false := head_not_ws (strip_id_parts hks).1
  have hkR : stripR k' = k' := by
    have h2 := (strip_id_parts hks).2
    rw [stripR_cons_not_ws hws] at h2
    simpa using h2
  rw [pairLine, replaceNl_no_newline hvn]
  have hshape : (c :: k') ++ ' ' :: '=' :: ' ' :: v =
      c :: (k' ++ ([' ', '=', ' '] ++ v)) := by simp
  rw [hshape, pyStrip_cons_not_ws hws]
  rw [stripR_append k' ([' ', '=', ' '] ++ v)]
  rw [stripR_append [' ', '=', ' '] v]
  by_cases hve : stripR v = []
  · simp [hve, show stripR [' ', '=', ' '] = [' ', '='] by decide, hkR]
  · simp [hve, hkR]

theorem parseStep_option_gen {st : PSt} {nm : Str}
    {ps : List (Str × List Str)} {k v : Str}
    (hcur : st.cur = some (nm, ps))
    (hk : wfKey k) (hvn : '\n' ∉ v)
    (hdup : k ∉ ps.map Prod.fst) :
    parseStep st (pairLine k v) =
      .ok { st with cur := some (nm, ps ++ [(k, [pyStrip v])]),
                    curOpt := some k, indent := some 0 } := by
  obtain ⟨hkne, hks, hkn, hkr, hkeq, hkcol, hh1, hh2, hh3⟩ := hk
  obtain ⟨c, k', rfl⟩ : ∃ c k', k = c :: k' := by
    cases k with
    | nil => exact absurd rfl hkne
    | cons c k' => exact ⟨c, k', rfl⟩
  have hc_br : ¬ c = '[' := fun h => hh1 (by simp [h])
  have hc_hash : ¬ c = '#' := fun h => hh2 (by simp [h])
  have hc_semi : ¬ c = ';' := fun h => hh3 (by simp [h])
  have hws : pyWs c = false := head_not_ws (strip_id_parts hks).1
  have hstrip := pyStrip_pairLine_gen hkne hks hvn
  have hcm : ((c = '#' : Bool) || (c = ';' : Bool)) = false := by
    simp [hc_hash, hc_semi]
  have hind : ((pairLine (c :: k') v).takeWhile pyWs).length = 0 := by
    have : pairLine (c :: k') v = c :: (k' ++ ' ' :: '=' :: ' ' :: replaceNl v) := by
      simp [pairLine]
    rw [this]
    exact takeWhile_len_zero hws
  have hkey_delim : '=' ∉ ((c :: k') ++ [' ']) ∧ ':' ∉ ((c :: k') ++ [' ']) := by
    constructor
    · intro h
      rcases List.mem_append.mp h with h | h
      · exact hkeq h
      · simp at h
    · intro h
      rcases List.mem_append.mp h with h | h
      · exact hkcol h
      · simp at h
  have hkR : stripR ((c :: k') ++ [' ']) = c :: k' :=
    stripR_key_space (strip_id_parts hks).2
  by_cases hve : stripR v = []
  · have hnil : pyStrip v = [] := pyStrip_eq_nil_of_stripR hve
    have hval : pyStrip (pairLine (c :: k') v) = (c :: k') ++ [' ', '='] := by
      rw [hstrip]
      simp [hve]
    rw [parseStep_flush hval rfl hcm hind]
    rw [parseNew]
    have hmh : matchHeader ((c :: k') ++ [' ', '=']) = none := by
      rw [show ((c :: k') ++ [' ', '='] : Str) = c :: (k' ++ [' ', '=']) by simp]
      exact matchHeader_not_bracket hc_br
    simp only [hmh, hcur]
    have hsd : splitDelim ((c :: k') ++ [' ', '=']) =
        some ((c :: k') ++ [' '], []) := by
      rw [show ((c :: k') ++ [' ', '=' ] : Str) =
            ((c :: k') ++ [' ']) ++ '=' :: [] by simp]
      exact splitDelim_append hkey_delim (Or.inl rfl)
    simp only [hsd, hkR, pyStrip_nil, hnil]
    simp [hdup]
  · have hval : pyStrip (pairLine (c :: k') v) =
        c :: (k' ++ ([' ', '=', ' '] ++ stripR v)) := by
      rw [hstrip]
      simp [hve]
    rw [parseStep_flush hval rfl hcm hind]
    rw [parseNew]
    have hmh : matchHeader (c :: (k' ++ ([' ', '=', ' '] ++ stripR v))) =
        none := matchHeader_not_bracket hc_br
    simp only [hmh, hcur]
    have hsd : splitDelim (c :: (k' ++ ([' ', '=', ' '] ++ stripR v))) =
        some ((c :: k') ++ [' '], ' ' :: stripR v) := by
      rw [show c :: (k' ++ ([' ', '=', ' '] ++ stripR v)) =
            ((c :: k') ++ [' ']) ++ '=' :: (' ' :: stripR v) by simp]
      exact splitDelim_append hkey_delim (Or.inl rfl)
    simp only [hsd, hkR, pyStrip_space_stripR]
    simp [hdup]

theorem lastOpt_append_last (o : Option Str) (ps : List (Str × Str))
    (p : Str × Str) : lastOpt o (ps ++ [p]) = some p.1 := by
  induction ps generalizing o with
  | nil => rfl
  | cons q u ih =>
    rw [List.cons_append, lastOpt]
    exact ih _

theorem parseLinesGo_sec_gen {st : PSt} {n k : Str}
    {ps' : List (Str × Str)} {r : Str} (rest : List Str)
    (hn : wfName n) (hk : wfKey k)
    (hnd : ((ps' ++ [(k, pyStrip r)]).map Prod.fst).Nodup)
    (hwf : ∀ p ∈ ps', wfKey p.1 ∧ pyStrip p.2 = p.2 ∧ '\n' ∉ p.2)
    (hrn : '\n' ∉ r)
    (hf1 : n ∉ st.done.map Prod.fst) (hf2 : st.cur.map Prod.fst ≠ some n) :
    parseLinesGo st (sectionLines n (ps' ++ [(k, r)]) ++ rest) =
      parseLinesGo (stateAfterSec st n (ps' ++ [(k, pyStrip r)])) rest := by
  have hndp : (ps'.map Prod.fst).Nodup := by
    rw [List.map_append] at hnd
    exact (List.nodup_append.mp hnd).1
  have hkfresh : k ∉ ps'.map Prod.fst := by
    intro hmem
    rw [List.map_append] at hnd
    exact (List.nodup_append.mp hnd).2.2 hmem (by simp)
  rw [show sectionLines n (ps' ++ [(k, r)]) ++ rest =
        ('[' :: (n ++ [']'])) ::
          (ps'.map (fun p => pairLine p.1 p.2) ++
            (pairLine k r :: [] :: rest)) by
      simp [sectionLines]]
  rw [parseLinesGo, parseStep_header hn.1 hn.2.2.2 hf1 hf2]
  dsimp only
  rw [parseLinesGo_pairs ps' (pairLine k r :: [] :: rest) hwf
    (by simpa using hndp)]
  rw [parseLinesGo, parseStep_option_gen rfl hk hrn
    (by simpa [storedPlain] using hkfresh)]
  dsimp only
  rw [parseLinesGo, parseStep_blank_app rfl rfl]
  dsimp only
  rw [show (([] ++ storedPlain ps') ++ [(k, [pyStrip r])] :
        List (Str × List Str)) =
      storedPlain (ps' ++ [(k, pyStrip r)]) by simp [storedPlain]]
  rw [appendToKey_secStored hnd (lastOpt_append_last none ps' _)]
  rw [stateAfterSec]
  rw [show lastOpt none (ps' ++ [(k, pyStrip r)]) = some k from
    lastOpt_append_last none ps' _]
  simp

theorem docLines_append (a b : Doc) :
    docLines (a ++ b) = docLines a ++ docLines b := by
  induction a with
  | nil => rfl
  | cons s t ih =>
    rw [List.cons_append,
      show docLines (s :: (t ++ b)) =
        sectionLines s.1 s.2 ++ docLines (t ++ b) from rfl,
      ih,
      show docLines (s :: t) = sectionLines s.1 s.2 ++ docLines t from rfl,
      List.append_assoc]

theorem docState_append (st : PSt) (a b : Doc) :
    docState st (a ++ b) = docState (docState st a) b := by
  induction a generalizing st with
  | nil => rfl
  | cons s t ih =>
    rw [List.cons_append, docState, docState, ih]

theorem docState_names (d : Doc) :
    ((docState pInit d).done.map Prod.fst) ++
      (((docState pInit d).cur.toList).map Prod.fst) = d.map Prod.fst := by
  have h := congrArg (List.map Prod.fst) (docState_decomp pInit d)
  simp only [List.map_append, List.map_map] at h
  rw [h]
  simp [pInit, Function.comp]

theorem docState_name_mem {d : Doc} {n : Str}
    (h : n ∈ (docState pInit d).done.map Prod.fst ∨
      (docState pInit d).cur.map Prod.fst = some n) :
    n ∈ d.map Prod.fst := by
  rw [← docState_names d]
  rcases h with h | h
  · exact List.mem_append_left _ h
  · refine List.mem_append_right _ ?_
    cases hc : (docState pInit d).cur with
    | none => rw [hc] at h; simp at h
    | some p =>
      rw [hc] at h
      simp only [Option.map_some', Option.some.injEq] at h
      simp [hc, h]

theorem finalizeSt_docState_gen {d : Doc}
    (hv : ∀ s ∈ d, ∀ p ∈ s.2, stripR p.2 = p.2) :
    finalizeSt (docState pInit d) = d := by
  rw [finalizeSt, docState_decomp]
  rw [show pInit.done ++ pInit.cur.toList = [] from rfl, List.nil_append,
    List.map_map]
  have hcongr : ∀ s ∈ d,
      ((fun x => (x.1, finalizePairs x.2)) ∘
        (fun x => (x.1, secStored x.2))) s = id s := by
    intro s hs
    simp [finalizePairs_secStored (hv s hs)]
  rw [List.map_congr_left hcongr, List.map_id]

theorem updateSec_split {A : Doc} {n : Str}
    (hA : n ∉ A.map Prod.fst) (ps : List (Str × Str)) (B : Doc)
    (f : List (Str × Str) → List (Str × Str)) :
    updateSec (A ++ (n, ps) :: B) n f = A ++ (n, f ps) :: B := by
  induction A with
  | nil => simp [updateSec]
  | cons s t ih =>
    have hs : ¬ s.1 = n := fun h => hA (by simp [h])
    rw [List.cons_append, updateSec]
    simp only [hs, if_false, reduceIte]
    rw [List.cons_append, ih (fun h => hA (by simp [h]))]

theorem findSec_split {A : Doc} {n : Str}
    (hA : n ∉ A.map Prod.fst) (ps : List (Str × Str)) (B : Doc) :
    findSec (A ++ (n, ps) :: B) n = some ps := by
  induction A with
  | nil => simp [findSec, List.find?]
  | cons s t ih =>
    have hs : ¬ s.1 = n := fun h => hA (by simp [h])
    rw [List.cons_append, findSec, List.find?_cons_of_neg _ (by simp [hs])]
    exact ih (fun h => hA (by simp [h]))

theorem doc_split {X : Doc} {n : Str} (h : hasSec X n = true) :
    ∃ A ps B, X = A ++ (n, ps) :: B ∧ n ∉ A.map Prod.fst := by
  induction X with
  | nil => simp [hasSec] at h
  | cons s t ih =>
    by_cases hs : s.1 = n
    · refine ⟨[], s.2, t, ?_, by simp⟩
      rw [← hs]
      simp
    · rw [hasSec, List.any_cons] at h
      simp only [hs, decide_False, Bool.false_or] at h
      obtain ⟨A, ps, B, hX, hA⟩ := ih h
      refine ⟨s :: A, ps, B, by rw [List.cons_append, ← hX], ?_⟩
      simp only [List.map_cons, List.mem_cons]
      rintro (hh | hh)
      · exact hs hh.symm
      · exact hA hh

theorem filter_lower_free {ps : List (Str × Str)}
    (hfree : ∀ p ∈ ps, ¬ lowerStr p.1 = infoTipLower) :
    ps.filter (fun p => ¬ lowerStr p.1 = infoTipLower) = ps :=
  List.filter_eq_self.mpr (fun p hp => by simpa using hfree p hp)

theorem filter_drop_infotip {ps : List (Str × Str)} {w : Str}
    (hfree : ∀ p ∈ ps, ¬ lowerStr p.1 = infoTipLower) :
    (ps ++ [(infoTipKey, w)]).filter
      (fun p => ¬ lowerStr p.1 = infoTipLower) = ps := by
  rw [List.filter_append, filter_lower_free hfree]
  simp [lowerStr_infoTipKey]

theorem parse_write_config_gen {A B : Doc} {ps' : List (Str × Str)} {r : Str}
    (hnd : ((A ++ (shellClassInfo, ps' ++ [(infoTipKey, pyStrip r)]) :: B).map
      Prod.fst).Nodup)
    (hA : ∀ s ∈ A, wfSec s) (hB : ∀ s ∈ B, wfSec s)
    (hps : ∀ p ∈ ps', wfKey p.1 ∧ pyStrip p.2 = p.2 ∧ '\n' ∉ p.2)
    (hpnd : ((ps' ++ [(infoTipKey, pyStrip r)]).map Prod.fst).Nodup)
    (hrn : '\n' ∉ r) :
    parseText (write_config_text
        (A ++ (shellClassInfo, ps' ++ [(infoTipKey, r)]) :: B)) =
      .ok (A ++ (shellClassInfo, ps' ++ [(infoTipKey, pyStrip r)]) :: B) := by
  have hnonl : ∀ l ∈ docLines
      (A ++ (shellClassInfo, ps' ++ [(infoTipKey, r)]) :: B), '\n' ∉ l := by
    intro l hl
    rw [docLines_append] at hl
    rcases List.mem_append.mp hl with hl | hl
    · exact docLines_no_newline hA l hl
    · rw [show docLines ((shellClassInfo, ps' ++ [(infoTipKey, r)]) :: B) =
          sectionLines shellClassInfo (ps' ++ [(infoTipKey, r)]) ++
            docLines B from rfl] at hl
      rcases List.mem_append.mp hl with hl | hl
      · rw [sectionLines] at hl
        rcases List.mem_cons.mp hl with rfl | hl
        · exact by decide
        · rcases List.mem_append.mp hl with hl | hl
          · obtain ⟨p, hp, rfl⟩ := List.mem_map.mp hl
            rcases List.mem_append.mp hp with hp | hp
            · obtain ⟨hk, hv, hvn⟩ := hps p hp
              rw [pairLine, replaceNl_no_newline hvn]
              intro hmem
              rcases List.mem_append.mp hmem with h | h
              · exact hk.2.2.1 h
              · rcases List.mem_cons.mp h with h | h
                · exact absurd h (by decide)
                · rcases List.mem_cons.mp h with h | h
                  · exact absurd h (by decide)
                  · rcases List.mem_cons.mp h with h | h
                    · exact absurd h (by decide)
                    · exact hvn h
            · simp only [List.mem_singleton] at hp
              subst hp
              dsimp only
              rw [pairLine, replaceNl_no_newline hrn]
              intro hmem
              rcases List.mem_append.mp hmem with h | h
              · exact absurd h (by decide)
              · rcases List.mem_cons.mp h with h | h
                · exact absurd h (by decide)
                · rcases List.mem_cons.mp h with h | h
                  · exact absurd h (by decide)
                  · rcases List.mem_cons.mp h with h | h
                    · exact absurd h (by decide)
                    · exact hrn h
          · simp only [List.mem_singleton] at hl
            subst hl
            simp
      · exact docLines_no_newline hB l hl
  have hndA : (A.map Prod.fst).Nodup := by
    rw [List.map_append] at hnd
    exact (List.nodup_append.mp hnd).1
  have hSCI_A : shellClassInfo ∉ A.map Prod.fst := by
    rw [List.map_append] at hnd
    intro hmem
    exact (List.nodup_append.mp hnd).2.2 hmem (by simp)
  have hndB : (B.map Prod.fst).Nodup := by
    rw [List.map_append] at hnd
    have h2 := (List.nodup_append.mp hnd).2.1
    simp only [List.map_cons] at h2
    exact (List.nodup_cons.mp h2).2
  have hBnames : ∀ x ∈ B, x.1 ∉
      (A ++ [(shellClassInfo, ps' ++ [(infoTipKey, pyStrip r)])]).map
        Prod.fst := by
    intro x hx hmem
    rw [List.map_append] at hnd hmem
    rcases List.mem_append.mp hmem with hmem | hmem
    · exact (List.nodup_append.mp hnd).2.2 hmem
        (by simp [List.mem_cons_of_mem _ (List.mem_map_of_mem Prod.fst hx)])
    · have h2 := (List.nodup_append.mp hnd).2.1
      simp only [List.map_cons] at h2
      simp only [List.map_cons, List.map_nil, List.mem_singleton] at hmem
      exact (List.nodup_cons.mp h2).1
        (hmem ▸ List.mem_map_of_mem Prod.fst hx)
  rw [parseText, write_config_text, splitLines_unlines hnonl]
  rw [docLines_append, List.append_assoc]
  rw [show docLines ((shellClassInfo, ps' ++ [(infoTipKey, r)]) :: B) =
      sectionLines shellClassInfo (ps' ++ [(infoTipKey, r)]) ++
        docLines B from rfl]
  rw [List.append_assoc]
  rw [parseLinesGo_doc _ hA hndA (by intro s hs; simp [pInit])]
  rw [parseLinesGo_sec_gen _ (by decide) (by decide) hpnd hps hrn
    (fun hmem => hSCI_A (docState_name_mem (Or.inl hmem)))
    (fun hmem => hSCI_A (docState_name_mem (Or.inr hmem)))]
  rw [show stateAfterSec (docState pInit A) shellClassInfo
        (ps' ++ [(infoTipKey, pyStrip r)]) =
      docState pInit
        (A ++ [(shellClassInfo, ps' ++ [(infoTipKey, pyStrip r)])]) by
    rw [docState_append]
    rfl]
  rw [parseLinesGo_doc [[]] hB hndB (fun x hx =>
    ⟨fun hmem => hBnames x hx (docState_name_mem (Or.inl hmem)),
      fun hmem => hBnames x hx (docState_name_mem (Or.inr hmem))⟩)]
  rw [← docState_append]
  rw [show (A ++ [(shellClassInfo, ps' ++ [(infoTipKey, pyStrip r)])]) ++ B =
      A ++ (shellClassInfo, ps' ++ [(infoTipKey, pyStrip r)]) :: B by simp]
  obtain ⟨st', hstep, hfin⟩ := finalizeSt_blank (docState pInit
    (A ++ (shellClassInfo, ps' ++ [(infoTipKey, pyStrip r)]) :: B))
  rw [show ([[]] : List Str) = [] :: [] from rfl, parseLinesGo, hstep]
  dsimp only
  rw [parseLinesGo]
  simp only [Except.map]
  rw [hfin, finalizeSt_docState_gen ?hstripped]
  case hstripped =>
    intro s hs p hp
    rcases List.mem_append.mp hs with hs | hs
    · exact (strip_id_parts ((((hA s hs).2.2) p hp).2).1).2
    · rcases List.mem_cons.mp hs with rfl | hs
      · rcases List.mem_append.mp hp with hp | hp
        · exact (strip_id_parts (hps p hp).2.1).2
        · simp only [List.mem_singleton] at hp
          subst hp
          exact (strip_id_parts (pyStrip_idem r)).2
      · exact (strip_id_parts ((((hB s hs).2.2) p hp).2).1).2

theorem applyRemark_set_split {d : Doc} {r : Str} (hwf : wfDoc d)
    (hrne : r ≠ []) (hbp : badPercent r = false) :
    ∃ A ps1 B,
      applyRemark d r =
        .ok (A ++ (shellClassInfo, ps1 ++ [(infoTipKey, r)]) :: B) ∧
      ((A ++ (shellClassInfo, ps1 ++ [(infoTipKey, pyStrip r)]) :: B).map
        Prod.fst).Nodup ∧
      (∀ s ∈ A, wfSec s) ∧ (∀ s ∈ B, wfSec s) ∧
      (∀ p ∈ ps1, wfKey p.1 ∧ wfVal p.2) ∧
      (∀ p ∈ ps1, ¬ lowerStr p.1 = infoTipLower) ∧
      ((ps1 ++ [(infoTipKey, pyStrip r)]).map Prod.fst).Nodup ∧
      shellClassInfo ∉ A.map Prod.fst := by
  obtain ⟨ps1, hfind2, hwf2, hfree, hne2⟩ := applyRemark_cleanup hwf
  have hset : setKey ps1 infoTipKey r = ps1 ++ [(infoTipKey, r)] :=
    setKey_fresh (infoTip_fresh_of_lower_free hfree)
  have heq : applyRemark d r = .ok (updateSec
      (updateSec (if hasSec d shellClassInfo then d
          else d ++ [(shellClassInfo, [])]) shellClassInfo
        (fun ps => ps.filter (fun p => ¬ lowerStr p.1 = infoTipLower)))
      shellClassInfo (fun ps => setKey ps infoTipKey r)) := by
    rw [applyRemark]
    simp only [hrne, if_false, reduceIte, hbp, Bool.false_eq_true]
  obtain ⟨A, ps, B, hD2, hAf⟩ := doc_split (hasSec_of_findSec hfind2)
  have hps_eq : ps = ps1 := by
    have := findSec_split hAf ps B
    rw [← hD2, hfind2] at this
    simpa using this.symm
  subst hps_eq
  have hupd : updateSec
      (updateSec (if hasSec d shellClassInfo then d
          else d ++ [(shellClassInfo, [])]) shellClassInfo
        (fun ps => ps.filter (fun p => ¬ lowerStr p.1 = infoTipLower)))
      shellClassInfo (fun ps => setKey ps infoTipKey r) =
      A ++ (shellClassInfo, ps ++ [(infoTipKey, r)]) :: B := by
    rw [hD2, updateSec_split hAf]
    rw [hset]
  have hsecSCI : wfSec (shellClassInfo, ps) := by
    rw [hD2] at hwf2
    exact hwf2.2 _ (List.mem_append_right _ (by simp))
  have hndps : (ps.map Prod.fst).Nodup := hsecSCI.2.1
  have hfreshI : infoTipKey ∉ ps.map Prod.fst :=
    infoTip_fresh_of_lower_free hfree
  have hndnames : ((A ++ (shellClassInfo,
      ps ++ [(infoTipKey, pyStrip r)]) :: B).map Prod.fst).Nodup := by
    have h1 := hwf2.1
    rw [hD2] at h1
    simpa using h1
  refine ⟨A, ps, B, by rw [heq, hupd], hndnames, ?_, ?_, ?_, hfree, ?_, hAf⟩
  · intro s hs
    rw [hD2] at hwf2
    exact hwf2.2 s (List.mem_append_left _ hs)
  · intro s hs
    rw [hD2] at hwf2
    exact hwf2.2 s (List.mem_append_right _ (by simp [hs]))
  · intro p hp
    exact hsecSCI.2.2 p hp
  · rw [List.map_append]
    rw [List.nodup_append]
    refine ⟨hndps, by simp, ?_⟩
    intro x hx
    simp only [List.map_cons, List.map_nil, List.mem_singleton]
    intro hxI
    exact hfreshI (hxI ▸ hx)

theorem applyRemark_reapply {A B : Doc} {ps1 : List (Str × Str)} {r w : Str}
    (hrne : r ≠ []) (hbp : badPercent r = false)
    (hAf : shellClassInfo ∉ A.map Prod.fst)
    (hfree : ∀ p ∈ ps1, ¬ lowerStr p.1 = infoTipLower) :
    applyRemark (A ++ (shellClassInfo, ps1 ++ [(infoTipKey, w)]) :: B) r =
      .ok (A ++ (shellClassInfo, ps1 ++ [(infoTipKey, r)]) :: B) := by
  have hhas : hasSec (A ++ (shellClassInfo, ps1 ++ [(infoTipKey, w)]) :: B)
      shellClassInfo = true :=
    hasSec_of_findSec (findSec_split hAf _ _)
  rw [applyRemark]
  simp only [hrne, if_false, reduceIte, hbp, Bool.false_eq_true, hhas,
    if_true]
  rw [updateSec_split hAf]
  rw [show (ps1 ++ [(infoTipKey, w)]).filter
        (fun p => ¬ lowerStr p.1 = infoTipLower) = ps1 from
    filter_drop_infotip hfree]
  rw [updateSec_split hAf]
  rw [show setKey ps1 infoTipKey r = ps1 ++ [(infoTipKey, r)] from
    setKey_fresh (infoTip_fresh_of_lower_free hfree)]

theorem write_text_no_cr_gen {A B : Doc} {ps' : List (Str × Str)} {r : Str}
    (hA : ∀ s ∈ A, wfSec s) (hB : ∀ s ∈ B, wfSec s)
    (hps : ∀ p ∈ ps', wfKey p.1 ∧ wfVal p.2)
    (hrn : '\n' ∉ r) (hrc : '\r' ∉ r) :
    '\r' ∉ write_config_text
      (A ++ (shellClassInfo, ps' ++ [(infoTipKey, r)]) :: B) := by
  apply unlines_no_cr
  intro l hl
  rw [docLines_append] at hl
  rcases List.mem_append.mp hl with hl | hl
  · exact docLines_no_cr hA l hl
  · rw [show docLines ((shellClassInfo, ps' ++ [(infoTipKey, r)]) :: B) =
        sectionLines shellClassInfo (ps' ++ [(infoTipKey, r)]) ++
          docLines B from rfl] at hl
    rcases List.mem_append.mp hl with hl | hl
    · rw [sectionLines] at hl
      rcases List.mem_cons.mp hl with rfl | hl
      · exact by decide
      · rcases List.mem_append.mp hl with hl | hl
        · obtain ⟨p, hp, rfl⟩ := List.mem_map.mp hl
          rcases List.mem_append.mp hp with hp | hp
          · obtain ⟨hk, hv⟩ := hps p hp
            rw [pairLine, replaceNl_no_newline hv.2.1]
            intro hmem
            rcases List.mem_append.mp hmem with h | h
            · exact hk.2.2.2.1 h
            · rcases List.mem_cons.mp h with h | h
              · exact absurd h (by decide)
              · rcases List.mem_cons.mp h with h | h
                · exact absurd h (by decide)
                · rcases List.mem_cons.mp h with h | h
                  · exact absurd h (by decide)
                  · exact hv.2.2.1 h
          · simp only [List.mem_singleton] at hp
            subst hp
            dsimp only
            rw [pairLine, replaceNl_no_newline hrn]
            intro hmem
            rcases List.mem_append.mp hmem with h | h
            · exact absurd h (by decide)
            · rcases List.mem_cons.mp h with h | h
              · exact absurd h (by decide)
              · rcases List.mem_cons.mp h with h | h
                · exact absurd h (by decide)
                · rcases List.mem_cons.mp h with h | h
                  · exact absurd h (by decide)
                  · exact hrc h
        · simp only [List.mem_singleton] at hl
          subst hl
          simp
    · exact docLines_no_cr hB l hl

/-- The C5 counterexample remark: a lone carriage return, no newline. -/
def c5r : Str := "x\rfoo = 2".toList

